import Mathlib

/-!
# ai-web-gen: extraction, sanitisation and preview composition of `script.js`

A shallow embedding of the helper functions of `src/script.js`
(`sanitizeCSS`, `cleanAIText`, `extractBetween`, `sanitizeJS`, `updatePreview`)
and of the post-response part of the click handler.

JavaScript strings are sequences of UTF-16 code units.  They are modelled as
`List Char`, and a `Char` is a Unicode scalar value, so the model has one
`Char` per code point, not per code unit.  On text of the Basic Multilingual
Plane without surrogates the two coincide, and where the comments below say
"code unit" they speak of such a `Char`.  Outside of it the model is coarser:

* a character beyond the Basic Multilingual Plane is one `Char`, where the
  source sees a surrogate pair of two code units;
* a string with a lone surrogate has no image in `List Char`.

Every test the source performs on a code unit (ASCII letters and punctuation,
the white space set of `\s` and `trim`, the line terminators of `.`, `^` and
`$`) lies in the Basic Multilingual Plane, and no expression of the source
tells the two halves of a surrogate pair apart or counts them.  The one
operation that does count code units is `split` with an empty separator,
which cuts a surrogate pair into two pieces where the model yields one; the
source calls `split` with the non-empty markers only, and no theorem below
depends on that branch.

Regular expressions are modelled by a small backtracking matcher that returns
the possible end positions of a match in the priority order of the
ECMAScript matcher; the first one is the match `exec` reports.
-/

namespace AiWebGen

/-- A JavaScript string, as the list of its code points (see the remark on
surrogate pairs at the head of the file). -/
abbrev Str := List Char

/-! ## Character classes -/

/-- ECMAScript `LineTerminator`: LF, CR, LS, PS.  These are the code units that
`.` does not match and at which `^` and `$` anchor under the `m` flag. -/
def isLineTerminator (c : Char) : Bool :=
  c.toNat = 0x0A || c.toNat = 0x0D || c.toNat = 0x2028 || c.toNat = 0x2029

/-- ECMAScript `WhiteSpace` together with `LineTerminator`: the set matched by
`\s` and stripped by `String.prototype.trim`. -/
def isWhiteSpace (c : Char) : Bool :=
  c.toNat = 0x09 || c.toNat = 0x0A || c.toNat = 0x0B || c.toNat = 0x0C ||
  c.toNat = 0x0D || c.toNat = 0x20 || c.toNat = 0xA0 || c.toNat = 0x1680 ||
  (0x2000 ≤ c.toNat && c.toNat ≤ 0x200A) ||
  c.toNat = 0x2028 || c.toNat = 0x2029 || c.toNat = 0x202F ||
  c.toNat = 0x205F || c.toNat = 0x3000 || c.toNat = 0xFEFF

/-- The `Canonicalize` operation of a non-unicode, ignore-case regular
expression, on the code units that can be equal to the canonical form of an
ASCII pattern character: an ASCII lower-case letter maps to its upper-case
letter.  (A non-ASCII unit whose upper case is ASCII is left alone by
`Canonicalize`, so it never equals the canonical form of an ASCII letter.) -/
def canonicalize (c : Char) : Char :=
  if 97 ≤ c.toNat ∧ c.toNat ≤ 122 then Char.ofNat (c.toNat - 32) else c

/-- `String.prototype.trim`: strip white space and line terminators from both
ends. -/
def trim (s : Str) : Str :=
  (s.dropWhile isWhiteSpace).rdropWhile isWhiteSpace

/-! ## Regular expressions -/

/-- The fragment of ECMAScript regular expressions used by `script.js`.
Quantifiers are only ever applied to a single character class there. -/
inductive RE where
  /-- a single code unit satisfying a class (a literal, `.`, `\s`, `[^>]`) -/
  | cls (p : Char → Bool)
  /-- concatenation -/
  | seq (a b : RE)
  /-- alternation `a|b`, left alternative first -/
  | alt (a b : RE)
  /-- a quantified class: between `lo` and `hi` repetitions (`none`: unbounded),
  greedy or lazy -/
  | rep (p : Char → Bool) (lo : Nat) (hi : Option Nat) (greedy : Bool)
  /-- the assertion `^` -/
  | bol
  /-- the assertion `$` -/
  | eol

/-- A position in the subject string: the code unit just before it (`none` at
index 0) and the remainder of the subject from it. -/
structure Cur where
  prev : Option Char
  rest : Str

/-- The assertion `^`: index 0, or with the `m` flag just after a line
terminator. -/
def atLineStart (multiline : Bool) : Option Char → Bool
  | none => true
  | some c => multiline && isLineTerminator c

/-- The assertion `$`: end of input, or with the `m` flag just before a line
terminator. -/
def atLineEnd (multiline : Bool) : Str → Bool
  | [] => true
  | c :: _ => multiline && isLineTerminator c

/-- May one more repetition follow `k` repetitions under the upper bound
`hi` (`none`: unbounded)? -/
def underBound (hi : Option Nat) (k : Nat) : Bool :=
  match hi with
  | none => true
  | some h => decide (k < h)

/-- All ways to consume between `lo` and `hi` code units of class `p`, each
given as the position reached; `k` units have been consumed so far.  Greedy:
longest first.  Lazy: shortest first. -/
def runRep (p : Char → Bool) (lo : Nat) (hi : Option Nat) (greedy : Bool) :
    Nat → Option Char → Str → List Cur
  | k, prev, [] => if lo ≤ k then [⟨prev, []⟩] else []
  | k, prev, c :: cs =>
    let here : List Cur := if lo ≤ k then [⟨prev, c :: cs⟩] else []
    let more : List Cur :=
      if p c && underBound hi k then
        runRep p lo hi greedy (k + 1) (some c) cs
      else []
    if greedy then more ++ here else here ++ more

/-- The backtracking matcher: the positions at which a match of the
expression starting at the given position can end, in the order in which the
ECMAScript matcher tries them. -/
def run (multiline : Bool) : RE → Cur → List Cur
  | .cls p, ⟨_, c :: cs⟩ => if p c then [⟨some c, cs⟩] else []
  | .cls _, ⟨_, []⟩ => []
  | .seq a b, z => (run multiline a z).flatMap (run multiline b)
  | .alt a b, z => run multiline a z ++ run multiline b z
  | .rep p lo hi greedy, z => runRep p lo hi greedy 0 z.prev z.rest
  | .bol, z => if atLineStart multiline z.prev then [z] else []
  | .eol, z => if atLineEnd multiline z.rest then [z] else []

/-- The match found when the matcher is started at one position: the
position just after the match. -/
def matchAt (multiline : Bool) (re : RE) (prev : Option Char) (rest : Str) : Option Cur :=
  (run multiline re ⟨prev, rest⟩).head?

/-- Does the code unit `x` match the pattern character `c`?  With the `i`
flag the two are compared after canonicalisation. -/
def sameChar (ignoreCase : Bool) (c x : Char) : Bool :=
  if ignoreCase then canonicalize x == canonicalize c else x == c

/-- A literal pattern character. -/
def lit (ignoreCase : Bool) (c : Char) : RE :=
  .cls (sameChar ignoreCase c)

/-- A literal pattern string of at least one character. -/
def lits (ignoreCase : Bool) : Str → RE
  | [] => .rep (fun _ => false) 0 (some 0) true
  | [c] => lit ignoreCase c
  | c :: d :: cs => .seq (lit ignoreCase c) (lits ignoreCase (d :: cs))

/-- `s.replace(re, "")` with the `g` flag, from one position on: every match,
found left to right from the end of the previous one, is deleted.  An empty
match deletes nothing and the search resumes one code unit further.  The first
argument bounds the number of iterations. -/
def removeAllFrom (multiline : Bool) (re : RE) : Nat → Option Char → Str → Str
  | 0, _, s => s
  | _ + 1, _, [] => []
  | n + 1, prev, c :: cs =>
    match matchAt multiline re prev (c :: cs) with
    | some z =>
      if z.rest.length < (c :: cs).length then removeAllFrom multiline re n z.prev z.rest
      else c :: removeAllFrom multiline re n (some c) cs
    | none => c :: removeAllFrom multiline re n (some c) cs

/-- The method `s.replace(re, "")` for a global `re`.  Every iteration
consumes at least one code unit, so `s.length` iterations suffice. -/
def removeAll (multiline : Bool) (re : RE) (s : Str) : Str :=
  removeAllFrom multiline re s.length none s

/-- `s.replace(re, "")` without the `g` flag, from one position on: only the
leftmost match is deleted. -/
def removeFirstFrom (multiline : Bool) (re : RE) : Option Char → Str → Str
  | _, [] => []
  | prev, c :: cs =>
    match matchAt multiline re prev (c :: cs) with
    | some z => z.rest
    | none => c :: removeFirstFrom multiline re (some c) cs

/-- The method `s.replace(re, "")` for a non-global `re`. -/
def removeFirst (multiline : Bool) (re : RE) (s : Str) : Str :=
  removeFirstFrom multiline re none s

/-- The method `re.test(s)` from one position on: is there a match starting
at it or later. -/
def testFrom (multiline : Bool) (re : RE) : Option Char → Str → Bool
  | prev, [] => (matchAt multiline re prev []).isSome
  | prev, c :: cs =>
    (matchAt multiline re prev (c :: cs)).isSome || testFrom multiline re (some c) cs

/-- The method `re.test(s)`. -/
def test (multiline : Bool) (re : RE) (s : Str) : Bool :=
  testFrom multiline re none s

/-- Concatenation of a list of expressions. -/
def cat : List RE → RE
  | [] => .rep (fun _ => false) 0 (some 0) true
  | [a] => a
  | a :: b :: rs => .seq a (cat (b :: rs))

/-- The class `\s`. -/
def reSpaces : RE := .rep isWhiteSpace 0 none true

/-- The class `[^>]`. -/
def notGt (c : Char) : Bool := c != '>'

/-- The class `.`: any code unit but a line terminator. -/
def dot (c : Char) : Bool := !isLineTerminator c

/-! ## Strings: `includes`, `split`, `replace` with a string pattern -/

/-- `StringIndexOf(s, pat, 0)`: the index of the first occurrence of `pat`. -/
def indexOf (pat : Str) : Str → Option Nat
  | [] => if pat.isEmpty then some 0 else none
  | c :: cs =>
    if pat.isPrefixOf (c :: cs) then some 0 else (indexOf pat cs).map (· + 1)

/-- The method `s.includes(pat)`. -/
def includes (s pat : Str) : Bool := (indexOf pat s).isSome

/-- The loop of `String.prototype.split` for a non-empty separator: cut at the
first occurrence of the separator and go on after it.  The first argument
bounds the number of iterations. -/
def splitLoop (sep : Str) : Nat → Str → List Str
  | 0, s => [s]
  | n + 1, s =>
    match indexOf sep s with
    | none => [s]
    | some i => s.take i :: splitLoop sep n (s.drop (i + sep.length))

/-- The method `s.split(sep)`: with an empty separator, one piece per element
of `s` (per code unit in the source: the model agrees on text without
surrogate pairs only); otherwise the pieces between the successive
occurrences of `sep`.  Every iteration consumes at least one element, so
`s.length` iterations suffice. -/
def split (s sep : Str) : List Str :=
  if sep.isEmpty then s.map (fun c => [c]) else splitLoop sep s.length s

/-- `GetSubstitution` for a string pattern (no captures): in the replacement
text `$$` stands for `$`, `$&` for the matched text, `$` followed by a
backtick for the text before the match and `$` followed by an apostrophe for
the text after it. -/
def getSubstitution (matched before after : Str) : Str → Str
  | [] => []
  | [c] => [c]
  | c :: d :: t =>
    if c = '$' then
      if d = '$' then '$' :: getSubstitution matched before after t
      else if d = '&' then matched ++ getSubstitution matched before after t
      else if d = Char.ofNat 96 then before ++ getSubstitution matched before after t
      else if d = Char.ofNat 39 then after ++ getSubstitution matched before after t
      else c :: getSubstitution matched before after (d :: t)
    else c :: getSubstitution matched before after (d :: t)

/-- The method `s.replace(pat, replacement)` for a string `pat`: the first
occurrence of `pat` is replaced by the expansion of `replacement`. -/
def replaceStr (s pat replacement : Str) : Str :=
  match indexOf pat s with
  | none => s
  | some i =>
    s.take i ++ getSubstitution pat (s.take i) (s.drop (i + pat.length)) replacement
      ++ s.drop (i + pat.length)

/-! ## The helpers of `script.js` -/

/-- The expression `/^\s*css\s*/i`. -/
def reCssLabel : RE := cat [.bol, reSpaces, lits true "css".toList, reSpaces]

/-- The expression `/^\s*(html|javascript)\s*/gi`. -/
def reStrayLabel : RE :=
  cat [.bol, reSpaces, .alt (lits true "html".toList) (lits true "javascript".toList), reSpaces]

/-- The function `sanitizeCSS`. -/
def sanitizeCSS (css : Str) : Str :=
  trim (removeAll false reStrayLabel (removeFirst false reCssLabel css))

/-- The expression matching three backticks, with the `g` flag. -/
def reFence : RE := lits false "```".toList

/-- The expression `/^\s*(html|css|javascript)\s*$/gim`. -/
def reLabelLine : RE :=
  cat [.bol, reSpaces,
    .alt (lits true "html".toList) (.alt (lits true "css".toList) (lits true "javascript".toList)),
    reSpaces, .eol]

/-- The expression `/^#{1,6}.*$/gm`. -/
def reHeading : RE :=
  cat [.bol, .rep (fun c => c == '#') 1 (some 6) true, .rep dot 0 none true, .eol]

/-- The function `cleanAIText`. -/
def cleanAIText (text : Str) : Str :=
  trim (removeAll true reHeading (removeAll true reLabelLine (removeAll false reFence text)))

/-- The function `extractBetween`.  `none` stands for the `TypeError` raised
when `text.split(start)[1]` is `undefined`. -/
def extractBetween (text start end_ : Str) : Option Str :=
  if !includes text start || !includes text end_ then some []
  else
    match (split text start)[1]? with
    | none => none
    | some piece =>
      match (split piece end_)[0]? with
      | none => none
      | some seg => some (trim seg)

/-- The expression `/<script[^>]*>/gi`. -/
def reScriptOpen : RE := cat [lits true "<script".toList, .rep notGt 0 none true, lit true '>']

/-- The expression `/<\/script>/gi`. -/
def reScriptClose : RE := lits true "</script>".toList

/-- The expression `/<[^>]+>/g`. -/
def reTag : RE := cat [lit false '<', .rep notGt 1 none true, lit false '>']

/-- The function `sanitizeJS`. -/
def sanitizeJS (js : Str) : Str :=
  trim (removeAll false reTag (removeAll false reScriptClose (removeAll false reScriptOpen js)))

/-- The class `["']`. -/
def quote (c : Char) : Bool := c == '"' || c == Char.ofNat 39

/-- The expression `/<script[^>]*src=["'].*?["'][^>]*><\/script>/gi`. -/
def reExternalScript : RE :=
  cat [lits true "<script".toList, .rep notGt 0 none true, lits true "src=".toList,
    .cls quote, .rep dot 0 none false, .cls quote, .rep notGt 0 none true,
    lits true "></script>".toList]

/-- The expression `/<head>/i`. -/
def reHead : RE := lits true "<head>".toList

/-- The document composed by `updatePreview`: the text `finalHTML` handed to
the preview frame as a blob. -/
def updatePreview (html css js : Str) : Str :=
  let html1 := removeAll false reExternalScript html
  let html2 :=
    if !test false reHead html1 then
      replaceStr html1 "<html>".toList "<html><head></head>".toList
    else html1
  let html3 := replaceStr html2 "</head>".toList ("<style>".toList ++ css ++ "</style></head>".toList)
  "\n".toList ++ html3 ++ "\n<script>\ntry \x7b\n".toList ++ js ++
    ("\n\x7d catch (e) \x7b\n  document.body.innerHTML =\n    \x27<pre style=\"color:red;font-family:monospace;\">Runtime Error: \x27 +\n" ++
     "    e.message +\n    \x27</pre>\x27;\n\x7d\n</script>\n").toList

/-! ## The click handler after the response has arrived -/

/-- What the page shows: the three code panes and the document of the preview
frame (`none` while nothing has been generated). -/
structure Display where
  htmlPane : Str
  cssPane : Str
  jsPane : Str
  preview : Option Str
deriving DecidableEq

/-- How a run of the handler ends. -/
inductive Outcome where
  /-- the alert asking for a description -/
  | missingInput
  /-- the alert `API key is missing.` -/
  | missingCredential
  /-- the alert `AI returned invalid format. Please regenerate.` -/
  | invalidBundle
  /-- the alert `AI generation failed.` of the `catch` block -/
  | generationFailed
  /-- panes and preview were updated -/
  | previewed
deriving DecidableEq

/-- The expression `raw.split("---JS---")[1] || ""`. -/
def jsSegment (raw : Str) : Str :=
  ((split raw "---JS---".toList)[1]?).getD []

/-- The handler from the line `raw = cleanAIText(raw)` on, given the text of
the completion: the new display and the outcome.  An exception raised on the
way is caught by the `catch` block of the handler. -/
def processCompletion (st : Display) (raw0 : Str) : Display × Outcome :=
  let raw := cleanAIText raw0
  match extractBetween raw "---HTML---".toList "---CSS---".toList with
  | none => (st, .generationFailed)
  | some html =>
    match extractBetween raw "---CSS---".toList "---JS---".toList with
    | none => (st, .generationFailed)
    | some cssRaw =>
      let css := sanitizeCSS cssRaw
      let js := sanitizeJS (jsSegment raw)
      if html.isEmpty || css.isEmpty || js.isEmpty then (st, .invalidBundle)
      else
        ({ htmlPane := html, cssPane := css, jsPane := js,
           preview := some (updatePreview html css js) }, .previewed)

/-! ## Vocabulary of the specification -/

/-- The code unit just before the position reached after reading `x` from a
position whose previous code unit is `prev`. -/
def lastOf : Option Char → Str → Option Char
  | prev, [] => prev
  | _, c :: x => lastOf (some c) x

/-- Declarative reading of an expression: `x` is matched by the expression at
a position preceded by the code unit `prev` and followed, after `x`, by the
text `after`. -/
def Den (multiline : Bool) : RE → Option Char → Str → Str → Prop
  | .cls p, _, x, _ => ∃ c, x = [c] ∧ p c = true
  | .seq a b, prev, x, after =>
    ∃ x1 x2, x = x1 ++ x2 ∧ Den multiline a prev x1 (x2 ++ after) ∧
      Den multiline b (lastOf prev x1) x2 after
  | .alt a b, prev, x, after => Den multiline a prev x after ∨ Den multiline b prev x after
  | .rep p lo hi _, _, x, _ =>
    (∀ c ∈ x, p c = true) ∧ lo ≤ x.length ∧ ∀ h, hi = some h → x.length ≤ h
  | .bol, prev, x, _ => x = [] ∧ atLineStart multiline prev = true
  | .eol, _, x, after => x = [] ∧ atLineEnd multiline after = true

/-- An angle-bracket tag: `<`, one or more code units other than `>`, then
`>`. -/
def IsTag (t : Str) : Prop :=
  ∃ x : Str, x ≠ [] ∧ '>' ∉ x ∧ t = '<' :: x ++ ['>']

/-- The text contains an angle-bracket tag. -/
def HasTag (s : Str) : Prop :=
  ∃ t, IsTag t ∧ t <:+: s

/-- Is `w` a prefix of `s`, letter case ignored?  Nothing is asked of what
follows the prefix. -/
def startsWithIgnoreCase (w s : Str) : Bool :=
  (s.take w.length).map canonicalize == w.map canonicalize

/-- The lines of a text: the pieces between its line terminators. -/
def lines : Str → List Str
  | [] => [[]]
  | c :: cs =>
    if isLineTerminator c then [] :: lines cs
    else
      match lines cs with
      | [] => [[c]]
      | l :: ls => (c :: l) :: ls

/-- A line consisting solely of the word `html`, `css` or `javascript`, in
any letter case, possibly surrounded by white space. -/
def isLabel (l : Str) : Bool :=
  (trim l).map canonicalize == "HTML".toList ||
  (trim l).map canonicalize == "CSS".toList ||
  (trim l).map canonicalize == "JAVASCRIPT".toList

/-- `Deleted ml re prev s out`: `out` is what is left of `s` when `s` is read
from left to right, from a position preceded by `prev`, and at each position
either a code unit at which the expression does not match is kept, or a
non-empty match of the expression is dropped. -/
inductive Deleted (ml : Bool) (re : RE) : Option Char → Str → Str → Prop where
  | done (prev : Option Char) : Deleted ml re prev [] []
  | keep (prev : Option Char) (c : Char) (s out : Str) :
      matchAt ml re prev (c :: s) = none → Deleted ml re (some c) s out →
      Deleted ml re prev (c :: s) (c :: out)
  | drop (prev : Option Char) (x after out : Str) :
      Den ml re prev x after → x ≠ [] → Deleted ml re (lastOf prev x) after out →
      Deleted ml re prev (x ++ after) out

/-- An expression all of whose matches are non-empty, start at a line start
and end at a line end. -/
def LineAnchored (re : RE) : Prop :=
  ∀ prev x after, Den true re prev x after →
    x ≠ [] ∧ atLineStart true prev = true ∧ atLineEnd true after = true

/-- A label word, possibly surrounded by white space, without any line
terminator: what a label line consists of. -/
def LabelCore (k : Str) : Prop :=
  ∃ v1 w v2, k = v1 ++ w ++ v2 ∧
    (∀ c ∈ v1, isWhiteSpace c = true ∧ isLineTerminator c = false) ∧
    (∀ c ∈ v2, isWhiteSpace c = true ∧ isLineTerminator c = false) ∧
    (w.map canonicalize = "HTML".toList ∨ w.map canonicalize = "CSS".toList ∨
      w.map canonicalize = "JAVASCRIPT".toList)

/-- The text has a label line: a label core that starts at a line start and
ends at a line end. -/
def HasLabelLine (t : Str) : Prop :=
  ∃ a k b, t = a ++ k ++ b ∧ LabelCore k ∧ atLineStart true (lastOf none a) = true ∧
    atLineEnd true b = true

/-- The text has a line that begins with `#`. -/
def HasHashLine (t : Str) : Prop :=
  ∃ a b, t = a ++ '#' :: b ∧ atLineStart true (lastOf none a) = true

/-- The indices at which `pat` occurs in `s`. -/
def occurrences (pat s : Str) : List Nat :=
  (List.range (s.length + 1)).filter (fun i => pat.isPrefixOf (s.drop i))

/-! ## The click handler -/

/-- The constant `BASE_PROMPT`. -/
def BASE_PROMPT : String :=
    "\n" ++
    "You are an experienced frontend developer and UI engineer.\n" ++
    "\n" ++
    "Your task is to generate a complete, functional website strictly using\n" ++
    "HTML, CSS, and JavaScript only. The output must be clean, readable,\n" ++
    "well-structured, and beginner-friendly. The generated website must work\n" ++
    "entirely in the browser without any backend, frameworks, libraries, or\n" ++
    "external dependencies.\n" ++
    "\n" ++
    "The JavaScript must be fully self-contained and should not assume the\n" ++
    "existence of any global variables or external files. The HTML must not\n" ++
    "include <script src=\"\"> or <link rel=\"stylesheet\"> tags. Styling must be\n" ++
    "written only in CSS, and behavior must be written only in JavaScript.\n" ++
    "\n" ++
    "Do not include explanations, markdown, headings, or labels such as\n" ++
    "\"html\", \"css\", or \"javascript\". Do not wrap code inside backticks.\n" ++
    "Return only pure code inside the exact markers provided below.\n" ++
    "\n" ++
    "The website should be practical, interactive, and realistic, following\n" ++
    "standard web development practices. Use meaningful IDs, classes, and\n" ++
    "clear logic.\n" ++
    "\n" ++
    "Return output in EXACTLY this format and nothing else:\n" ++
    "\n" ++
    "---HTML---\n" ++
    "(code)\n" ++
    "\n" ++
    "---CSS---\n" ++
    "(code)\n" ++
    "\n" ++
    "---JS---\n" ++
    "(code)\n" ++
    "\n" ++
    "User request:\n" ++
    "[USER_DESCRIPTION]\n"

/-- The request sent to the completion endpoint: its URL, the bearer
credential of the `Authorization` header, and the model, the content of the
single user message and the temperature (in tenths) of its body. -/
structure Request where
  url : String
  bearer : Str
  model : String
  content : Str
  temperatureTenths : Nat
deriving DecidableEq

/-- The constant `MODEL`. -/
def MODEL : String := "llama-3.3-70b-versatile"

/-- The request built by the handler for a trimmed description. -/
def buildRequest (apiKey userInput : Str) : Request :=
  { url := "https://api.groq.com/openai/v1/chat/completions"
    bearer := apiKey
    model := MODEL
    content := replaceStr BASE_PROMPT.toList "[USER_DESCRIPTION]".toList userInput
    temperatureTenths := 4 }

/-- The handler `generateBtn.onclick`, as a function of the display, the
value of the description field, the configured `API_KEY` and the network:
`respond` gives the text `data.choices[0].message.content` of the response to a
request, or `none` when the exchange fails or the response has not that shape
(an exception, caught by the `catch` block).  The result is the new display,
the outcome and the list of the requests issued. -/
def onGenerateClick (st : Display) (description apiKey : Str)
    (respond : Request → Option Str) : Display × Outcome × List Request :=
  let userInput := trim description
  if userInput.isEmpty then (st, .missingInput, [])
  else if apiKey.isEmpty then (st, .missingCredential, [])
  else
    let request := buildRequest apiKey userInput
    match respond request with
    | none => (st, .generationFailed, [request])
    | some raw =>
      let result := processCompletion st raw
      (result.1, result.2, [request])

end AiWebGen

/-! # Theorems -/

namespace AiWebGen

/-! ## Occurrences of a pattern in a string -/

theorem isPrefixOf_eq_true_iff (pat s : Str) : pat.isPrefixOf s = true ↔ pat <+: s :=
  List.isPrefixOf_iff_prefix

theorem indexOf_nil_left (s : Str) : indexOf [] s = some 0 := by
  cases s <;> simp [indexOf]

/-- The index reported by `indexOf` is that of an occurrence, and no occurrence
starts before it. -/
theorem indexOf_eq_some_iff (pat s : Str) (i : Nat) :
    indexOf pat s = some i ↔
      pat <+: s.drop i ∧ i ≤ s.length ∧ ∀ j, j < i → ¬ pat <+: s.drop j := by
  induction s generalizing i with
  | nil =>
    cases pat with
    | nil =>
      simp only [indexOf, List.isEmpty_nil, if_true, Option.some.injEq, List.drop_nil,
        List.prefix_rfl, List.length_nil, Nat.le_zero_eq, true_and]
      constructor
      · intro h; subst h; simp
      · intro h; exact h.1.symm
    | cons a l => simp [indexOf]
  | cons c cs ih =>
    unfold indexOf
    by_cases hp : pat.isPrefixOf (c :: cs) = true
    · rw [if_pos hp]
      have hp2 := (isPrefixOf_eq_true_iff _ _).1 hp
      constructor
      · intro h
        have h0 : i = 0 := by simpa using h.symm
        subst h0
        simpa using hp2
      · rintro ⟨_, _, h3⟩
        cases i with
        | zero => rfl
        | succ i => exact absurd (by simpa using hp2) (h3 0 (Nat.succ_pos _))
    · rw [if_neg hp]
      have hp2 : ¬ pat <+: c :: cs := fun h => hp ((isPrefixOf_eq_true_iff _ _).2 h)
      cases i with
      | zero =>
        simp only [Option.map_eq_some', Nat.add_eq_zero, one_ne_zero, and_false, exists_const,
          List.drop_zero, false_iff, not_and]
        intro h; exact absurd h hp2
      | succ i =>
        simp only [Option.map_eq_some', Nat.add_right_cancel_iff, exists_eq_right, List.drop_succ_cons,
          List.length_cons, Nat.add_le_add_iff_right]
        rw [ih i]
        constructor
        · rintro ⟨h1, h2, h3⟩
          refine ⟨h1, h2, ?_⟩
          intro j hj
          cases j with
          | zero => simpa using hp2
          | succ j => simpa using h3 j (by omega)
        · rintro ⟨h1, h2, h3⟩
          refine ⟨h1, h2, ?_⟩
          intro j hj
          simpa using h3 (j + 1) (by omega)

theorem infix_iff_exists_drop (pat s : Str) :
    pat <:+: s ↔ ∃ j, j ≤ s.length ∧ pat <+: s.drop j := by
  constructor
  · rintro ⟨a, b, h⟩
    refine ⟨a.length, ?_, ?_⟩
    · rw [← h]; simp
    · rw [← h]; simp [List.append_assoc]
  · rintro ⟨j, _, h⟩
    exact h.isInfix.trans (List.drop_suffix j s).isInfix

theorem indexOf_eq_none_iff (pat s : Str) : indexOf pat s = none ↔ ¬ pat <:+: s := by
  induction s with
  | nil =>
    cases pat with
    | nil => simp [indexOf]
    | cons a l => simp [indexOf]
  | cons c cs ih =>
    unfold indexOf
    by_cases hp : pat.isPrefixOf (c :: cs) = true
    · rw [if_pos hp]
      have hp2 := (isPrefixOf_eq_true_iff _ _).1 hp
      simp [hp2.isInfix]
    · rw [if_neg hp]
      have hp2 : ¬ pat <+: c :: cs := fun h => hp ((isPrefixOf_eq_true_iff _ _).2 h)
      simp only [Option.map_eq_none', ih]
      rw [List.infix_cons_iff]
      simp [hp2]

theorem includes_eq_true_iff (s pat : Str) : includes s pat = true ↔ pat <:+: s := by
  unfold includes
  rw [Option.isSome_iff_ne_none, Ne, indexOf_eq_none_iff, not_not]

theorem indexOf_take {pat s : Str} {j k : Nat} (h : indexOf pat s = some j)
    (hk : j + pat.length ≤ k) : indexOf pat (s.take k) = some j := by
  rw [indexOf_eq_some_iff] at h ⊢
  obtain ⟨h1, h2, h3⟩ := h
  refine ⟨?_, ?_, ?_⟩
  · rw [List.drop_take, List.prefix_take_iff]
    exact ⟨h1, by omega⟩
  · rw [List.length_take]; omega
  · intro j' hj' hpre
    rw [List.drop_take, List.prefix_take_iff] at hpre
    exact h3 j' hj' hpre.1

theorem splitLoop_head_of_none {sep s : Str} (n : Nat) (h : indexOf sep s = none) :
    (splitLoop sep n s)[0]? = some s := by
  cases n <;> simp [splitLoop, h]

theorem splitLoop_head_of_some {sep s : Str} {i : Nat} (n : Nat) (h : indexOf sep s = some i) :
    (splitLoop sep (n + 1) s)[0]? = some (s.take i) := by
  simp [splitLoop, h]

/-- An occurrence makes the subject at least as long as the pattern. -/
theorem indexOf_length_le {pat s : Str} {i : Nat} (h : indexOf pat s = some i) :
    i + pat.length ≤ s.length := by
  rw [indexOf_eq_some_iff] at h
  have := h.1.length_le
  rw [List.length_drop] at this
  omega

/-- The first piece of `s.split(sep)` when the separator occurs. -/
theorem split_head_of_some {sep s : Str} {i : Nat} (hsep : sep ≠ [])
    (h : indexOf sep s = some i) : (split s sep)[0]? = some (s.take i) := by
  have hlen := indexOf_length_le h
  have hpos : 0 < sep.length := List.length_pos.2 hsep
  unfold split
  have : sep.isEmpty = false := by cases sep <;> simp_all
  rw [this]
  obtain ⟨n, hn⟩ : ∃ n, s.length = n + 1 := ⟨s.length - 1, by omega⟩
  simp only [Bool.false_eq_true, if_false, hn]
  exact splitLoop_head_of_some n h

/-- The first piece of `s.split(sep)` when the separator does not occur. -/
theorem split_head_of_none {sep s : Str} (hsep : sep ≠ [])
    (h : indexOf sep s = none) : (split s sep)[0]? = some s := by
  unfold split
  have : sep.isEmpty = false := by cases sep <;> simp_all
  rw [this]
  simp only [Bool.false_eq_true, if_false]
  exact splitLoop_head_of_none _ h

/-- The second piece of `s.split(sep)` when the separator occurs: the text
after the first occurrence, up to the next one. -/
theorem split_second {sep s : Str} {i : Nat} (hsep : sep ≠ [])
    (h : indexOf sep s = some i) :
    (split s sep)[1]? = some
      (match indexOf sep (s.drop (i + sep.length)) with
       | none => s.drop (i + sep.length)
       | some k => (s.drop (i + sep.length)).take k) := by
  have hlen := indexOf_length_le h
  have hpos : 0 < sep.length := List.length_pos.2 hsep
  unfold split
  have : sep.isEmpty = false := by cases sep <;> simp_all
  rw [this]
  obtain ⟨n, hn⟩ : ∃ n, s.length = n + 1 := ⟨s.length - 1, by omega⟩
  simp only [Bool.false_eq_true, if_false, hn]
  simp only [splitLoop, h, List.getElem?_cons_succ]
  cases hk : indexOf sep (s.drop (i + sep.length)) with
  | none => exact splitLoop_head_of_none n hk
  | some k =>
    have hlen2 := indexOf_length_le hk
    rw [List.length_drop] at hlen2
    obtain ⟨m, hm⟩ : ∃ m, n = m + 1 := ⟨n - 1, by omega⟩
    rw [hm]
    exact splitLoop_head_of_some m hk

/-- What `extractBetween` returns when both markers occur, the end marker
after the start marker, and the start marker does not occur again before the
end of that end marker. -/
theorem extractBetween_eq {text start end_ : Str} {i j : Nat}
    (hs : start ≠ []) (he : end_ ≠ [])
    (hi : indexOf start text = some i)
    (hj : indexOf end_ (text.drop (i + start.length)) = some j)
    (hk : ∀ k, indexOf start (text.drop (i + start.length)) = some k → j + end_.length ≤ k) :
    extractBetween text start end_ = some (trim ((text.drop (i + start.length)).take j)) := by
  have hinc1 : includes text start = true := by simp [includes, hi]
  have hinc2 : includes text end_ = true := by
    rw [includes_eq_true_iff]
    have : end_ <:+: text.drop (i + start.length) := by
      rw [← includes_eq_true_iff]; simp [includes, hj]
    exact this.trans (List.drop_suffix _ _).isInfix
  unfold extractBetween
  simp only [hinc1, hinc2, Bool.not_true, Bool.or_self, Bool.false_eq_true, if_false]
  rw [split_second hs hi]
  cases hk2 : indexOf start (text.drop (i + start.length)) with
  | none =>
    simp only
    rw [split_head_of_some he hj]
  | some k =>
    simp only
    have hle := hk k hk2
    rw [split_head_of_some he (indexOf_take hj hle)]
    simp only [List.take_take]
    rw [Nat.min_eq_left (by omega)]

/-! ## The matcher and the declarative reading of expressions -/

theorem lastOf_nil (prev : Option Char) : lastOf prev [] = prev := rfl

theorem lastOf_cons (prev : Option Char) (c : Char) (x : Str) :
    lastOf prev (c :: x) = lastOf (some c) x := rfl

theorem lastOf_append_singleton (prev : Option Char) (x : Str) (c : Char) :
    lastOf prev (x ++ [c]) = some c := by
  induction x generalizing prev with
  | nil => rfl
  | cons d x ih => simp only [List.cons_append, lastOf_cons, ih]

theorem lastOf_append (prev : Option Char) (x y : Str) :
    lastOf prev (x ++ y) = lastOf (lastOf prev x) y := by
  induction x generalizing prev with
  | nil => simp [lastOf_nil]
  | cons c x ih => simp only [List.cons_append, lastOf_cons, ih]

theorem runRep_cons (p : Char → Bool) (lo : Nat) (hi : Option Nat) (g : Bool)
    (k : Nat) (prev : Option Char) (c : Char) (cs : Str) :
    runRep p lo hi g k prev (c :: cs) =
      if g then
        (if (p c && underBound hi k) = true then
          runRep p lo hi g (k + 1) (some c) cs else []) ++
        (if lo ≤ k then [⟨prev, c :: cs⟩] else [])
      else
        (if lo ≤ k then [⟨prev, c :: cs⟩] else []) ++
        (if (p c && underBound hi k) = true then
          runRep p lo hi g (k + 1) (some c) cs else []) := by
  cases g <;> simp [runRep]

theorem mem_runRep_iff (p : Char → Bool) (lo : Nat) (hi : Option Nat) (g : Bool)
    (k : Nat) (prev : Option Char) (s : Str) (z : Cur) :
    z ∈ runRep p lo hi g k prev s ↔
      ∃ x, s = x ++ z.rest ∧ z.prev = lastOf prev x ∧ (∀ c ∈ x, p c = true) ∧
        lo ≤ k + x.length ∧ (x = [] ∨ ∀ h, hi = some h → k + x.length ≤ h) := by
  induction s generalizing k prev with
  | nil =>
    simp only [runRep]
    constructor
    · intro h
      by_cases hk : lo ≤ k
      · rw [if_pos hk] at h
        have hz : z = ⟨prev, []⟩ := by simpa using h
        subst hz
        exact ⟨[], by simp [lastOf_nil, hk]⟩
      · rw [if_neg hk] at h; simp at h
    · rintro ⟨x, hx, hp, _, hlo, _⟩
      have hx1 : x = [] := by
        have := congrArg List.length hx
        simp at this
        exact List.length_eq_zero.1 (by omega)
      subst hx1
      have hz : z.rest = [] := by simpa using hx.symm
      simp only [List.length_nil, Nat.add_zero] at hlo
      rw [if_pos hlo]
      obtain ⟨zp, zr⟩ := z
      simp only [lastOf_nil] at hp hz
      subst hp hz
      exact List.mem_singleton_self _
  | cons c cs ih =>
    have key : z ∈ runRep p lo hi g k prev (c :: cs) ↔
        (lo ≤ k ∧ z = ⟨prev, c :: cs⟩) ∨
        (((p c && underBound hi k) = true) ∧
          z ∈ runRep p lo hi g (k + 1) (some c) cs) := by
      rw [runRep_cons]
      generalize (p c && underBound hi k) = b
      generalize runRep p lo hi g (k + 1) (some c) cs = more
      by_cases hk : lo ≤ k <;> cases b <;> cases g <;>
        simp [hk, or_comm]
    rw [key, ih, Bool.and_eq_true]
    constructor
    · rintro (⟨hk, hz⟩ | ⟨⟨hc, hh⟩, x, hx, hp, hall, hlo, hhi⟩)
      · subst hz
        exact ⟨[], by simp [lastOf_nil, hk]⟩
      · refine ⟨c :: x, by simp [hx], by rw [lastOf_cons]; exact hp, ?_, by simp; omega, ?_⟩
        · intro d hd
          rcases List.mem_cons.1 hd with h | h
          · subst h; exact hc
          · exact hall d h
        · right
          intro h hh2
          subst hh2
          simp only [underBound, decide_eq_true_eq] at hh
          rcases hhi with h0 | h0
          · subst h0; simp; omega
          · have := h0 h rfl
            simp only [List.length_cons]; omega
    · rintro ⟨x, hx, hp, hall, hlo, hhi⟩
      cases x with
      | nil =>
        left
        simp only [List.length_nil, Nat.add_zero] at hlo
        refine ⟨hlo, ?_⟩
        cases z
        simp_all [lastOf_nil]
      | cons d x =>
        right
        simp only [List.cons_append, List.cons.injEq] at hx
        obtain ⟨hd, hx⟩ := hx
        subst hd
        refine ⟨⟨hall c (List.mem_cons_self _ _), ?_⟩, x, hx, by rw [← lastOf_cons]; exact hp,
          fun e he => hall e (List.mem_cons_of_mem _ he), by simp at hlo; omega, ?_⟩
        · cases hi with
          | none => rfl
          | some h =>
            rcases hhi with h0 | h0
            · simp at h0
            · have := h0 h rfl
              simp only [List.length_cons] at this
              simp only [underBound, decide_eq_true_eq]; omega
        · right
          intro h hh2
          rcases hhi with h0 | h0
          · simp at h0
          · have := h0 h hh2
            simp only [List.length_cons] at this
            omega

/-- The matcher is sound and complete for the declarative reading: the
positions it returns are exactly the ends of the texts the expression
matches at the given position. -/
theorem mem_run_iff (ml : Bool) (re : RE) (prev : Option Char) (s : Str) (z : Cur) :
    z ∈ run ml re ⟨prev, s⟩ ↔
      ∃ x, s = x ++ z.rest ∧ z.prev = lastOf prev x ∧ Den ml re prev x z.rest := by
  induction re generalizing prev s z with
  | cls p =>
    cases s with
    | nil => simp [run, Den]
    | cons c cs =>
      simp only [run, Den]
      constructor
      · intro h
        by_cases hc : p c = true
        · rw [if_pos hc] at h
          have hz : z = ⟨some c, cs⟩ := by simpa using h
          subst hz
          exact ⟨[c], rfl, by simp [lastOf], c, rfl, hc⟩
        · rw [if_neg hc] at h; simp at h
      · rintro ⟨x, hx, hp, d, hd, hpd⟩
        subst hd
        simp only [List.singleton_append, List.cons.injEq] at hx
        obtain ⟨h1, h2⟩ := hx
        subst h1
        rw [if_pos hpd]
        cases z
        simp_all [lastOf]
  | seq a b iha ihb =>
    simp only [run, Den, List.mem_flatMap]
    constructor
    · rintro ⟨y, hy, hz⟩
      obtain ⟨x1, hx1, hp1, hd1⟩ := (iha prev s y).1 hy
      obtain ⟨x2, hx2, hp2, hd2⟩ := (ihb y.prev y.rest z).1 hz
      refine ⟨x1 ++ x2, by rw [hx1, hx2, List.append_assoc], ?_, x1, x2, rfl, ?_, ?_⟩
      · rw [lastOf_append, ← hp1]; exact hp2
      · rw [← hx2]; exact hd1
      · rw [← hp1]; exact hd2
    · rintro ⟨x, hx, hp, x1, x2, hx12, hd1, hd2⟩
      subst hx12
      refine ⟨⟨lastOf prev x1, x2 ++ z.rest⟩, ?_, ?_⟩
      · exact (iha prev s _).2 ⟨x1, by rw [hx, List.append_assoc], rfl, hd1⟩
      · exact (ihb _ _ z).2 ⟨x2, rfl, by rw [hp, lastOf_append], hd2⟩
  | alt a b iha ihb =>
    simp only [run, Den, List.mem_append, iha, ihb]
    constructor
    · rintro (⟨x, h1, h2, h3⟩ | ⟨x, h1, h2, h3⟩)
      · exact ⟨x, h1, h2, Or.inl h3⟩
      · exact ⟨x, h1, h2, Or.inr h3⟩
    · rintro ⟨x, h1, h2, h3 | h3⟩
      · exact Or.inl ⟨x, h1, h2, h3⟩
      · exact Or.inr ⟨x, h1, h2, h3⟩
  | rep p lo hi g =>
    simp only [run, Den, mem_runRep_iff, Nat.zero_add]
    constructor
    · rintro ⟨x, h1, h2, h3, h4, h5⟩
      refine ⟨x, h1, h2, h3, h4, ?_⟩
      intro h hh
      rcases h5 with h0 | h0
      · subst h0; simp
      · exact h0 h hh
    · rintro ⟨x, h1, h2, h3, h4, h5⟩
      exact ⟨x, h1, h2, h3, h4, Or.inr h5⟩
  | bol =>
    simp only [run, Den]
    constructor
    · intro h
      by_cases hc : atLineStart ml prev = true
      · rw [if_pos hc] at h
        have hz : z = ⟨prev, s⟩ := by simpa using h
        subst hz
        exact ⟨[], rfl, rfl, rfl, hc⟩
      · rw [if_neg hc] at h; simp at h
    · rintro ⟨x, hx, hp, hx0, hc⟩
      subst hx0
      rw [if_pos hc]
      cases z
      simp_all [lastOf_nil]
  | eol =>
    simp only [run, Den]
    constructor
    · intro h
      by_cases hc : atLineEnd ml s = true
      · rw [if_pos hc] at h
        have hz : z = ⟨prev, s⟩ := by simpa using h
        subst hz
        exact ⟨[], rfl, rfl, rfl, hc⟩
      · rw [if_neg hc] at h; simp at h
    · rintro ⟨x, hx, hp, hx0, hc⟩
      subst hx0
      simp only [List.nil_append] at hx
      subst hx
      rw [if_pos hc]
      cases z
      simp_all [lastOf_nil]

theorem matchAt_eq_none_iff (ml : Bool) (re : RE) (prev : Option Char) (s : Str) :
    matchAt ml re prev s = none ↔ ∀ x r, s = x ++ r → ¬ Den ml re prev x r := by
  unfold matchAt
  rw [List.head?_eq_none_iff]
  constructor
  · intro h x r hs hd
    have : (⟨lastOf prev x, r⟩ : Cur) ∈ run ml re ⟨prev, s⟩ :=
      (mem_run_iff ml re prev s _).2 ⟨x, hs, rfl, hd⟩
    rw [h] at this
    exact List.not_mem_nil _ this
  · intro h
    rw [List.eq_nil_iff_forall_not_mem]
    intro z hz
    obtain ⟨x, hx, _, hd⟩ := (mem_run_iff ml re prev s z).1 hz
    exact h x z.rest hx hd

theorem matchAt_eq_some {ml : Bool} {re : RE} {prev : Option Char} {s : Str} {z : Cur}
    (h : matchAt ml re prev s = some z) :
    ∃ x, s = x ++ z.rest ∧ z.prev = lastOf prev x ∧ Den ml re prev x z.rest := by
  unfold matchAt at h
  exact (mem_run_iff ml re prev s z).1 (List.mem_of_mem_head? h)

/-! ## Deleting the matches of an expression -/

theorem removeAllFrom_sublist (ml : Bool) (re : RE) (n : Nat) (prev : Option Char) (s : Str) :
    (removeAllFrom ml re n prev s).Sublist s := by
  induction n generalizing prev s with
  | zero => simp [removeAllFrom]
  | succ n ih =>
    cases s with
    | nil => simp [removeAllFrom]
    | cons c cs =>
      simp only [removeAllFrom]
      cases hm : matchAt ml re prev (c :: cs) with
      | none => exact (ih (some c) cs).cons₂ c
      | some z =>
        simp only
        split
        · obtain ⟨x, hx, _, _⟩ := matchAt_eq_some hm
          have h1 := ih z.prev z.rest
          have h2 : z.rest.Sublist (c :: cs) := by
            rw [hx]; exact List.sublist_append_right _ _
          exact h1.trans h2
        · exact (ih (some c) cs).cons₂ c

/-- Where the expression matches nowhere, deleting its matches changes
nothing. -/
theorem removeAllFrom_eq_self (ml : Bool) (re : RE) (n : Nat) (prev : Option Char) (s : Str)
    (h : ∀ b t, s = b ++ t → matchAt ml re (lastOf prev b) t = none) :
    removeAllFrom ml re n prev s = s := by
  induction n generalizing prev s with
  | zero => simp [removeAllFrom]
  | succ n ih =>
    cases s with
    | nil => simp [removeAllFrom]
    | cons c cs =>
      have h0 : matchAt ml re prev (c :: cs) = none := h [] (c :: cs) rfl
      simp only [removeAllFrom, h0]
      rw [ih (some c) cs]
      intro b t hbt
      have := h (c :: b) t (by rw [hbt]; rfl)
      rwa [lastOf_cons] at this

theorem removeAll_eq_self (ml : Bool) (re : RE) (s : Str)
    (h : ∀ b t, s = b ++ t → matchAt ml re (lastOf none b) t = none) :
    removeAll ml re s = s :=
  removeAllFrom_eq_self ml re _ none s h

theorem removeFirstFrom_eq_self (ml : Bool) (re : RE) (prev : Option Char) (s : Str)
    (h : ∀ b t, s = b ++ t → matchAt ml re (lastOf prev b) t = none) :
    removeFirstFrom ml re prev s = s := by
  induction s generalizing prev with
  | nil => simp [removeFirstFrom]
  | cons c cs ih =>
    have h0 : matchAt ml re prev (c :: cs) = none := h [] (c :: cs) rfl
    simp only [removeFirstFrom, h0]
    rw [ih (some c)]
    intro b t hbt
    have := h (c :: b) t (by rw [hbt]; rfl)
    rwa [lastOf_cons] at this

/-! ## `trim` -/

theorem trim_within (s : Str) : trim s <:+: s :=
  (List.rdropWhile_prefix _ _).isInfix.trans (List.dropWhile_suffix _).isInfix

/-- A text that neither begins nor ends with white space is left alone by
`trim`. -/
theorem trim_eq_self {s : Str} (h1 : ∀ c, s.head? = some c → isWhiteSpace c = false)
    (h2 : ∀ c, s.getLast? = some c → isWhiteSpace c = false) : trim s = s := by
  unfold trim
  have e1 : s.dropWhile isWhiteSpace = s := by
    cases s with
    | nil => rfl
    | cons c cs => simp [List.dropWhile, h1 c rfl]
  rw [e1]
  rcases List.eq_nil_or_concat s with hs | ⟨l, c, hs⟩
  · subst hs; rfl
  · subst hs
    have := h2 c (by simp)
    rw [List.concat_eq_append, List.rdropWhile_concat, this]
    simp

theorem trim_head (s : Str) (c : Char) (h : (trim s).head? = some c) :
    isWhiteSpace c = false := by
  unfold trim at h
  have hpre : (s.dropWhile isWhiteSpace).rdropWhile isWhiteSpace <+: s.dropWhile isWhiteSpace :=
    List.rdropWhile_prefix _ _
  obtain ⟨t, ht⟩ := hpre
  cases hr : (s.dropWhile isWhiteSpace).rdropWhile isWhiteSpace with
  | nil => rw [hr] at h; simp at h
  | cons d ds =>
    rw [hr] at h ht
    have hd : d = c := by simpa using h
    subst hd
    have hh : (s.dropWhile isWhiteSpace).head? = some d := by rw [← ht]; rfl
    have := List.head?_dropWhile_not isWhiteSpace s
    rw [hh] at this
    simpa using this

theorem trim_getLast (s : Str) (c : Char) (h : (trim s).getLast? = some c) :
    isWhiteSpace c = false := by
  unfold trim at h
  generalize s.dropWhile isWhiteSpace = t at h
  rw [List.rdropWhile, List.getLast?_reverse] at h
  have := List.head?_dropWhile_not isWhiteSpace t.reverse
  rw [h] at this
  simpa using this

theorem trim_trim (s : Str) : trim (trim s) = trim s :=
  trim_eq_self (trim_head s) (trim_getLast s)

/-! ## `extractBetween` -/

/-- With non-empty markers `extractBetween` raises no exception. -/
theorem extractBetween_isSome {text start end_ : Str} (hs : start ≠ []) (he : end_ ≠ []) :
    ∃ r, extractBetween text start end_ = some r := by
  unfold extractBetween
  split
  · exact ⟨_, rfl⟩
  · rename_i hinc
    simp only [Bool.or_eq_true, Bool.not_eq_true', not_or, Bool.not_eq_false] at hinc
    obtain ⟨i, hi⟩ := Option.isSome_iff_exists.1 hinc.1
    rw [split_second hs hi]
    simp only
    generalize (match indexOf start (List.drop (i + start.length) text) with
      | none => List.drop (i + start.length) text
      | some k => List.take k (List.drop (i + start.length) text)) = piece
    cases hj : indexOf end_ piece with
    | none => rw [split_head_of_none he hj]; exact ⟨_, rfl⟩
    | some j => rw [split_head_of_some he hj]; exact ⟨_, rfl⟩

/-- C1, as stated, fails: in `AxAyB` the first `A` is at index 0 and the first
`B` at index 4, the text strictly between them is `xAy`, and `extractBetween`
returns `x`, the text up to the second occurrence of the start marker. -/
theorem extractBetween_first_occurrences_counterexample :
    indexOf "A".toList "AxAyB".toList = some 0 ∧
    indexOf "B".toList "AxAyB".toList = some 4 ∧
    trim (("AxAyB".toList.drop (0 + 1)).take (4 - (0 + 1))) = "xAy".toList ∧
    extractBetween "AxAyB".toList "A".toList "B".toList = some "x".toList := by
  decide

/-- C1 (amended): for non-empty markers, when `start` occurs in `text`, `end_`
occurs after the first occurrence of `start`, and `start` does not occur again
before the end of that occurrence of `end_`, `extractBetween` returns the text
strictly between the first occurrence of `start` and the first occurrence of
`end_` after it, trimmed. -/
theorem extractBetween_between_markers (text start end_ : Str) (i j : Nat)
    (hs : start ≠ []) (he : end_ ≠ [])
    (hi : indexOf start text = some i)
    (hj : indexOf end_ (text.drop (i + start.length)) = some j)
    (hk : ∀ k, indexOf start (text.drop (i + start.length)) = some k → j + end_.length ≤ k) :
    extractBetween text start end_ = some (trim ((text.drop (i + start.length)).take j)) :=
  extractBetween_eq hs he hi hj hk

/-- C1 (amended), on `B A x B A y` with markers `A` and `B`: the result is
`x`. -/
theorem extractBetween_between_markers_witness :
    extractBetween "B A x B A y".toList "A".toList "B".toList = some "x".toList :=
  extractBetween_between_markers "B A x B A y".toList "A".toList "B".toList 2 3
    (by decide) (by decide) (by decide) (by decide) (by decide)

/-- C2: if either marker does not occur in the text, `extractBetween` returns
the empty string, and raises no exception. -/
theorem extractBetween_missing_marker (text start end_ : Str)
    (h : ¬ start <:+: text ∨ ¬ end_ <:+: text) :
    extractBetween text start end_ = some [] := by
  unfold extractBetween
  rw [if_pos]
  rcases h with h | h
  · have : includes text start = false := by
      rw [← Bool.not_eq_true, includes_eq_true_iff]; exact h
    simp [this]
  · have : includes text end_ = false := by
      rw [← Bool.not_eq_true, includes_eq_true_iff]; exact h
    simp [this]

/-- C2, on a text without the marker `---CSS---`. -/
theorem extractBetween_missing_marker_witness :
    extractBetween "---HTML---<p>hi</p>".toList "---HTML---".toList "---CSS---".toList =
      some [] :=
  extractBetween_missing_marker _ _ _ (Or.inr (by decide))

/-! ## Literals -/

theorem sameChar_false_iff (c x : Char) : sameChar false c x = true ↔ x = c := by
  simp [sameChar]

theorem toNat_ofNat_upper (m : Nat) (h1 : 65 ≤ m) (h2 : m ≤ 90) : (Char.ofNat m).toNat = m := by
  interval_cases m <;> rfl

/-- Under the `i` flag a pattern character that is not an ASCII letter is
matched by itself only. -/
theorem sameChar_true_of_not_letter {c x : Char}
    (hc : c.toNat < 65 ∨ (90 < c.toNat ∧ c.toNat < 97) ∨ 122 < c.toNat)
    (h : sameChar true c x = true) : x = c := by
  have hcc : canonicalize c = c := by
    unfold canonicalize
    rw [if_neg]; omega
  simp only [sameChar, if_true, beq_iff_eq, hcc] at h
  unfold canonicalize at h
  split at h
  · rename_i hx
    have := congrArg Char.toNat h
    rw [toNat_ofNat_upper _ (by omega) (by omega)] at this
    omega
  · exact h

theorem sameChar_ne {ic : Bool} {c x y : Char} (h : sameChar ic c x = true)
    (hy : sameChar ic c y = false) : x ≠ y := by
  intro e; subst e; rw [h] at hy; cases hy

theorem den_lit_iff (ml ic : Bool) (c : Char) (prev : Option Char) (x after : Str) :
    Den ml (lit ic c) prev x after ↔ ∃ d, x = [d] ∧ sameChar ic c d = true := by
  simp [lit, Den]

/-- A literal pattern string matches the texts of its length whose code units
match its characters one by one. -/
theorem den_lits_iff (ml ic : Bool) (w : Str) (hw : w ≠ []) (prev : Option Char) (x after : Str) :
    Den ml (lits ic w) prev x after ↔ List.Forall₂ (fun d c => sameChar ic c d = true) x w := by
  induction w generalizing prev x after with
  | nil => exact absurd rfl hw
  | cons c w ih =>
    cases w with
    | nil =>
      simp only [lits, den_lit_iff]
      constructor
      · rintro ⟨d, hd, h⟩
        subst hd
        exact List.Forall₂.cons h List.Forall₂.nil
      · intro h
        cases h with
        | cons h1 h2 =>
          cases h2
          exact ⟨_, rfl, h1⟩
    | cons e w =>
      simp only [lits, Den]
      constructor
      · rintro ⟨x1, x2, hx, h1, h2⟩
        rw [ih (by simp)] at h2
        obtain ⟨d, hd, hcd⟩ := h1
        subst hd hx
        exact List.Forall₂.cons hcd h2
      · intro h
        cases h with
        | cons h1 h2 =>
          rename_i d t
          refine ⟨[d], t, rfl, ?_, ?_⟩
          · exact ⟨d, rfl, h1⟩
          · rw [ih (by simp)]; exact h2

theorem forall₂_sameChar_not_mem {ic : Bool} {x w : Str} {y : Char}
    (h : List.Forall₂ (fun d c => sameChar ic c d = true) x w)
    (hy : ∀ c ∈ w, sameChar ic c y = false) : y ∉ x := by
  induction h with
  | nil => simp
  | @cons d c t w' h1 _ ih =>
    intro hmem
    rcases List.mem_cons.1 hmem with e | e
    · exact sameChar_ne h1 (hy c (List.mem_cons_self _ _)) e.symm
    · exact ih (fun c hc => hy c (List.mem_cons_of_mem _ hc)) e

/-- A literal pattern string without the `i` flag matches itself only. -/
theorem den_lits_false_iff (ml : Bool) (w : Str) (hw : w ≠ []) (prev : Option Char)
    (x after : Str) : Den ml (lits false w) prev x after ↔ x = w := by
  rw [den_lits_iff ml false w hw]
  constructor
  · intro h
    clear hw
    induction h with
    | nil => rfl
    | cons h1 _ ih => rw [(sameChar_false_iff _ _).1 h1, ih]
  · intro h
    subst h
    clear hw
    induction x with
    | nil => exact List.Forall₂.nil
    | cons c x ih => exact List.Forall₂.cons ((sameChar_false_iff _ _).2 rfl) ih

/-! ## The expressions of `sanitizeJS` -/

theorem notGt_iff (c : Char) : notGt c = true ↔ c ≠ '>' := by
  simp [notGt]

/-- The expression `/<[^>]+>/` matches exactly the angle-bracket tags. -/
theorem den_reTag_iff (ml : Bool) (prev : Option Char) (x after : Str) :
    Den ml reTag prev x after ↔ IsTag x := by
  simp only [reTag, cat, Den, den_lit_iff, sameChar_false_iff, IsTag]
  constructor
  · rintro ⟨x1, x2, hx, ⟨d, hd, hd2⟩, y1, y2, hy, ⟨hall, hlen, _⟩, e, he, he2⟩
    subst hd2 he2 hd he hy hx
    refine ⟨y1, ?_, ?_, by simp⟩
    · intro h; subst h; simp at hlen
    · intro h; have := hall _ h; simp [notGt] at this
  · rintro ⟨y, hy, hgt, hx⟩
    subst hx
    refine ⟨['<'], y ++ ['>'], by simp, ⟨'<', rfl, rfl⟩, y, ['>'], rfl, ⟨?_, ?_, by simp⟩,
      '>', rfl, rfl⟩
    · intro c hc
      rw [notGt_iff]
      intro e; subst e; exact hgt hc
    · cases y with
      | nil => exact absurd rfl hy
      | cons a y => simp

theorem scriptOpen_toList : "<script".toList = ['<', 's', 'c', 'r', 'i', 'p', 't'] := rfl

theorem scriptClose_toList :
    "</script>".toList = ['<', '/', 's', 'c', 'r', 'i', 'p', 't', '>'] := rfl

theorem den_seq_iff (ml : Bool) (a b : RE) (prev : Option Char) (x after : Str) :
    Den ml (.seq a b) prev x after ↔
      ∃ x1 x2, x = x1 ++ x2 ∧ Den ml a prev x1 (x2 ++ after) ∧
        Den ml b (lastOf prev x1) x2 after := Iff.rfl

theorem den_rep_iff (ml : Bool) (p : Char → Bool) (lo : Nat) (hi : Option Nat) (g : Bool)
    (prev : Option Char) (x after : Str) :
    Den ml (.rep p lo hi g) prev x after ↔
      (∀ c ∈ x, p c = true) ∧ lo ≤ x.length ∧ ∀ h, hi = some h → x.length ≤ h := Iff.rfl

theorem den_alt_iff (ml : Bool) (a b : RE) (prev : Option Char) (x after : Str) :
    Den ml (.alt a b) prev x after ↔ Den ml a prev x after ∨ Den ml b prev x after := Iff.rfl

theorem den_bol_iff (ml : Bool) (prev : Option Char) (x after : Str) :
    Den ml .bol prev x after ↔ x = [] ∧ atLineStart ml prev = true := Iff.rfl

theorem den_eol_iff (ml : Bool) (prev : Option Char) (x after : Str) :
    Den ml .eol prev x after ↔ x = [] ∧ atLineEnd ml after = true := Iff.rfl

theorem reScriptOpen_eq :
    reScriptOpen =
      .seq (lits true "<script".toList) (.seq (.rep notGt 0 none true) (lit true '>')) := rfl

/-- Every match of `/<script[^>]*>/i` is an angle-bracket tag. -/
theorem den_reScriptOpen_isTag {ml : Bool} {prev : Option Char} {x after : Str}
    (h : Den ml reScriptOpen prev x after) : IsTag x := by
  rw [reScriptOpen_eq, den_seq_iff] at h
  obtain ⟨x1, x2, hx, h1, h2⟩ := h
  rw [den_seq_iff] at h2
  obtain ⟨y1, y2, hy, h2, h3⟩ := h2
  rw [den_rep_iff] at h2
  obtain ⟨hall, _, _⟩ := h2
  rw [den_lits_iff _ _ _ (by decide), scriptOpen_toList] at h1
  rw [den_lit_iff] at h3
  obtain ⟨e, he, he2⟩ := h3
  have he3 : e = '>' := sameChar_true_of_not_letter (by decide) he2
  cases h1 with
  | @cons d _ t _ hd ht =>
    have hd2 : d = '<' := sameChar_true_of_not_letter (by decide) hd
    have hlen := ht.length_eq
    subst hd2 he3 he hy hx
    refine ⟨t ++ y1, ?_, ?_, by simp⟩
    · intro hnil
      have : t = [] := (List.append_eq_nil.1 hnil).1
      subst this; simp at hlen
    · intro hmem
      rcases List.mem_append.1 hmem with hm | hm
      · exact forall₂_sameChar_not_mem ht (by decide) hm
      · have := hall _ hm; simp [notGt] at this

/-- Every match of `/<\/script>/i` is an angle-bracket tag. -/
theorem den_reScriptClose_isTag {ml : Bool} {prev : Option Char} {x after : Str}
    (h : Den ml reScriptClose prev x after) : IsTag x := by
  rw [reScriptClose, den_lits_iff _ _ _ (by decide), scriptClose_toList] at h
  cases h with
  | @cons d _ t _ hd ht =>
    have hd2 : d = '<' := sameChar_true_of_not_letter (by decide) hd
    subst hd2
    obtain ⟨u, e, hu⟩ : ∃ u e, t = u ++ [e] := by
      rcases List.eq_nil_or_concat t with h0 | ⟨u, e, h0⟩
      · subst h0; cases ht
      · exact ⟨u, e, by simpa using h0⟩
    subst hu
    have hw : ['/', 's', 'c', 'r', 'i', 'p', 't', '>'] = ['/', 's', 'c', 'r', 'i', 'p', 't'] ++ ['>'] :=
      rfl
    rw [hw] at ht
    have hlen := ht.length_eq
    have hlen2 : u.length = ['/', 's', 'c', 'r', 'i', 'p', 't'].length := by simpa using hlen
    have hsplit := List.forall₂_iff_zip.1 ht
    have ht1 : List.Forall₂ (fun d c => sameChar true c d = true) u
        ['/', 's', 'c', 'r', 'i', 'p', 't'] := by
      rw [List.forall₂_iff_zip]
      refine ⟨hlen2, ?_⟩
      intro a b hab
      apply hsplit.2
      rw [List.zip_append hlen2]
      exact List.mem_append_left _ hab
    have he : sameChar true '>' e = true := by
      apply hsplit.2
      rw [List.zip_append hlen2]
      exact List.mem_append_right _ (by simp)
    have he2 : e = '>' := sameChar_true_of_not_letter (by decide) he
    subst he2
    refine ⟨u, ?_, forall₂_sameChar_not_mem ht1 (by decide), rfl⟩
    intro h0; subst h0; simp at hlen2

theorem isTag_length {t : Str} (h : IsTag t) : 3 ≤ t.length := by
  obtain ⟨x, hx, _, ht⟩ := h
  subst ht
  cases x with
  | nil => exact absurd rfl hx
  | cons a x => simp

theorem isTag_head {t : Str} (h : IsTag t) : t.head? = some '<' := by
  obtain ⟨x, _, _, ht⟩ := h
  subst ht; rfl

/-- In a text without tags an expression all of whose matches are tags
matches nowhere. -/
theorem matchAt_eq_none_of_not_hasTag {ml : Bool} {re : RE} {s : Str}
    (hre : ∀ prev x after, Den ml re prev x after → IsTag x) (hs : ¬ HasTag s)
    (prev : Option Char) (b t : Str) (hbt : s = b ++ t) : matchAt ml re prev t = none := by
  rw [matchAt_eq_none_iff]
  intro x r hx hd
  apply hs
  refine ⟨x, hre _ _ _ hd, b, r, ?_⟩
  rw [hbt, hx, List.append_assoc]

/-! ## `sanitizeJS` leaves no tag -/

theorem hasTag_mono {s t : Str} (h : s <:+: t) (hs : HasTag s) : HasTag t := by
  obtain ⟨u, hu, hus⟩ := hs
  exact ⟨u, hu, hus.trans h⟩

/-- At a `<` followed by a code unit other than `>` and, later, by a `>`, the
expression `/<[^>]+>/` matches. -/
theorem matchAt_reTag_ne_none (prev : Option Char) (d : Char) (ds : Str)
    (hd : d ≠ '>') (hgt : '>' ∈ ds) : matchAt false reTag prev ('<' :: d :: ds) ≠ none := by
  intro h
  rw [matchAt_eq_none_iff] at h
  have hsplit : ds = ds.takeWhile notGt ++ ds.dropWhile notGt := (List.takeWhile_append_dropWhile _ _).symm
  have hne : ds.dropWhile notGt ≠ [] := by
    intro h0
    rw [List.dropWhile_eq_nil_iff] at h0
    have := h0 _ hgt
    simp [notGt] at this
  obtain ⟨e, r, her⟩ := List.exists_cons_of_ne_nil hne
  have he : e = '>' := by
    have := List.head?_dropWhile_not notGt ds
    rw [her] at this
    simpa [notGt] using this
  subst he
  refine h ('<' :: d :: ds.takeWhile notGt ++ ['>']) r ?_ ?_
  · conv_lhs => rw [hsplit, her]
    simp
  · rw [den_reTag_iff]
    refine ⟨d :: ds.takeWhile notGt, by simp, ?_, by simp⟩
    intro hmem
    rcases List.mem_cons.1 hmem with e | e
    · exact hd e.symm
    · have := List.mem_takeWhile_imp e
      simp [notGt] at this

/-- The text left by `replace(/<[^>]+>/g, "")` contains no angle-bracket
tag. -/
theorem removeAllFrom_reTag_not_hasTag (n : Nat) (prev : Option Char) (s : Str)
    (hn : s.length ≤ n) : ¬ HasTag (removeAllFrom false reTag n prev s) := by
  induction n generalizing prev s with
  | zero =>
    have : s = [] := List.length_eq_zero.1 (by omega)
    subst this
    rintro ⟨t, ht, hts⟩
    have h1 := isTag_length ht
    have h2 := hts.length_le
    simp only [removeAllFrom, List.length_nil] at h2
    omega
  | succ n ih =>
    cases s with
    | nil =>
      rintro ⟨t, ht, hts⟩
      have h1 := isTag_length ht
      have h2 := hts.length_le
      simp only [removeAllFrom, List.length_nil] at h2
      omega
    | cons c cs =>
      simp only [List.length_cons, Nat.add_le_add_iff_right] at hn
      have hrest : ¬ HasTag (removeAllFrom false reTag n (some c) cs) := ih _ _ hn
      have hkeep : matchAt false reTag prev (c :: cs) = none →
          ¬ HasTag (c :: removeAllFrom false reTag n (some c) cs) := by
        intro hnone htag
        obtain ⟨t, ht, hts⟩ := htag
        rcases List.infix_cons_iff.1 hts with hpre | hinf
        · obtain ⟨y, hy, hgt, hty⟩ := ht
          subst hty
          obtain ⟨b, hb⟩ := hpre
          simp only [List.cons_append, List.append_assoc, List.cons.injEq] at hb
          obtain ⟨hc, hout⟩ := hb
          subst hc
          have hsub := removeAllFrom_sublist false reTag n (some '<') cs
          have hgtcs : '>' ∈ cs := by
            apply hsub.subset
            rw [← hout]; simp
          cases cs with
          | nil => simp at hgtcs
          | cons d ds =>
            by_cases hd : d = '>'
            · subst hd
              obtain ⟨m, hm⟩ : ∃ m, n = m + 1 := ⟨n - 1, by simp at hn; omega⟩
              subst hm
              have hnone2 : matchAt false reTag (some '<') ('>' :: ds) = none := by
                rw [matchAt_eq_none_iff]
                intro x r hx hden
                rw [den_reTag_iff] at hden
                have := isTag_head hden
                obtain ⟨y', _, _, hx'⟩ := hden
                subst hx'
                simp at hx
              simp only [removeAllFrom, hnone2] at hout
              cases y with
              | nil => exact hy rfl
              | cons a y =>
                simp only [List.cons_append, List.cons.injEq] at hout
                apply hgt
                rw [hout.1]; simp
            · rcases List.mem_cons.1 hgtcs with e | e
              · exact hd e.symm
              · exact matchAt_reTag_ne_none prev d ds hd e hnone
        · exact hrest ⟨t, ht, hinf⟩
      simp only [removeAllFrom]
      cases hm : matchAt false reTag prev (c :: cs) with
      | none =>
        exact hkeep hm
      | some z =>
        simp only
        obtain ⟨x, hx, _, hden⟩ := matchAt_eq_some hm
        rw [den_reTag_iff] at hden
        have hlen := isTag_length hden
        have hl : (c :: cs).length = x.length + z.rest.length := by rw [hx]; simp
        have hlt : z.rest.length < (c :: cs).length := by omega
        rw [if_pos hlt]
        apply ih
        simp only [List.length_cons] at hl
        omega

theorem removeAll_reTag_not_hasTag (s : Str) : ¬ HasTag (removeAll false reTag s) :=
  removeAllFrom_reTag_not_hasTag _ none s (Nat.le_refl _)

theorem sanitizeJS_not_hasTag (js : Str) : ¬ HasTag (sanitizeJS js) := fun h =>
  removeAll_reTag_not_hasTag _ (hasTag_mono (trim_within _) h)

/-- On a text without tags `sanitizeJS` only trims. -/
theorem sanitizeJS_eq_trim_of_not_hasTag {s : Str} (hs : ¬ HasTag s) : sanitizeJS s = trim s := by
  unfold sanitizeJS
  have e1 : removeAll false reScriptOpen s = s :=
    removeAll_eq_self _ _ _ (fun b t hbt =>
      matchAt_eq_none_of_not_hasTag (fun _ _ _ h => den_reScriptOpen_isTag h) hs _ b t hbt)
  have e2 : removeAll false reScriptClose s = s :=
    removeAll_eq_self _ _ _ (fun b t hbt =>
      matchAt_eq_none_of_not_hasTag (fun _ _ _ h => den_reScriptClose_isTag h) hs _ b t hbt)
  have e3 : removeAll false reTag s = s :=
    removeAll_eq_self _ _ _ (fun b t hbt =>
      matchAt_eq_none_of_not_hasTag (fun _ _ _ h => (den_reTag_iff _ _ _ _).1 h) hs _ b t hbt)
  rw [e1, e2, e3]

/-- C5: the text returned by `sanitizeJS` contains no angle-bracket tag, that
is no `<`, then one or more code units other than `>`, then `>`; in particular
no opening tag `<script ...>` and no closing tag `</script>`, in any letter
case. -/
theorem sanitizeJS_no_angle_bracket_tag (js : Str) :
    (∀ x : Str, x ≠ [] → '>' ∉ x → ¬ ('<' :: x ++ ['>']) <:+: sanitizeJS js) ∧
    (∀ name attrs : Str, name.map canonicalize = "SCRIPT".toList → '>' ∉ attrs →
      ¬ ('<' :: (name ++ attrs) ++ ['>']) <:+: sanitizeJS js) ∧
    (∀ name : Str, name.map canonicalize = "SCRIPT".toList →
      ¬ ('<' :: ('/' :: name) ++ ['>']) <:+: sanitizeJS js) := by
  have key : ∀ x : Str, x ≠ [] → '>' ∉ x → ¬ ('<' :: x ++ ['>']) <:+: sanitizeJS js :=
    fun x hx hgt hinf => sanitizeJS_not_hasTag js ⟨_, ⟨x, hx, hgt, rfl⟩, hinf⟩
  have hname : ∀ name : Str, name.map canonicalize = "SCRIPT".toList →
      name ≠ [] ∧ '>' ∉ name := by
    intro name hn
    constructor
    · intro h0; subst h0; exact absurd hn (by decide)
    · intro hmem
      have : canonicalize '>' ∈ name.map canonicalize := List.mem_map_of_mem _ hmem
      rw [hn] at this
      exact absurd this (by decide)
  refine ⟨key, ?_, ?_⟩
  · intro name attrs hn hattrs
    obtain ⟨h1, h2⟩ := hname name hn
    apply key
    · intro h0; exact h1 (List.append_eq_nil.1 h0).1
    · intro hmem
      rcases List.mem_append.1 hmem with h | h
      · exact h2 h
      · exact hattrs h
  · intro name hn
    obtain ⟨h1, h2⟩ := hname name hn
    apply key
    · simp
    · intro hmem
      rcases List.mem_cons.1 hmem with h | h
      · exact absurd h (by decide)
      · exact h2 h

/-- C5, on a behaviour segment holding `<script>alert(1)</script>` and the
markup `<b>x</b>`. -/
theorem sanitizeJS_no_angle_bracket_tag_witness :
    sanitizeJS "<script>alert(1)</script> <b>x</b>".toList = "alert(1) x".toList ∧
    ¬ "<b>".toList <:+: sanitizeJS "<script>alert(1)</script> <b>x</b>".toList :=
  ⟨by decide,
   (sanitizeJS_no_angle_bracket_tag "<script>alert(1)</script> <b>x</b>".toList).1
     "b".toList (by decide) (by decide)⟩

/-- C10: `sanitizeJS` is idempotent. -/
theorem sanitizeJS_idempotent (t : Str) : sanitizeJS (sanitizeJS t) = sanitizeJS t := by
  rw [sanitizeJS_eq_trim_of_not_hasTag (sanitizeJS_not_hasTag t)]
  unfold sanitizeJS
  exact trim_trim _

/-! ## Markers that occur exactly once -/

theorem mem_occurrences_iff (pat s : Str) (i : Nat) :
    i ∈ occurrences pat s ↔ i ≤ s.length ∧ pat <+: s.drop i := by
  simp [occurrences, List.mem_filter, Nat.lt_succ_iff]

theorem occurrences_unique {pat s : Str} {i j : Nat} (h : (occurrences pat s).length = 1)
    (hi : i ∈ occurrences pat s) (hj : j ∈ occurrences pat s) : i = j := by
  obtain ⟨a, ha⟩ := List.length_eq_one.1 h
  rw [ha] at hi hj
  rw [List.mem_singleton.1 hi, List.mem_singleton.1 hj]

theorem mem_occurrences_append (pat p a r : Str) :
    p.length + a.length ∈ occurrences pat (p ++ (a ++ pat ++ r)) := by
  rw [mem_occurrences_iff]
  refine ⟨by simp, ?_⟩
  have : (p ++ (a ++ pat ++ r)).drop (p.length + a.length) = pat ++ r := by
    rw [← List.append_assoc, ← List.append_assoc, List.append_assoc (p ++ a),
      ← List.length_append, List.drop_left]
  rw [this]
  exact List.prefix_append _ _

/-- A marker that occurs once in `p ++ s`, in `s` after the text `a`, is
first found in `s` at the length of `a`. -/
theorem indexOf_of_once {pat p s a r : Str} (h : (occurrences pat (p ++ s)).length = 1)
    (hs : s = a ++ pat ++ r) : indexOf pat s = some a.length := by
  cases hj : indexOf pat s with
  | none =>
    rw [indexOf_eq_none_iff] at hj
    exact absurd ⟨a, r, hs.symm⟩ hj
  | some j =>
    rw [indexOf_eq_some_iff] at hj
    have h1 : p.length + j ∈ occurrences pat (p ++ s) := by
      rw [mem_occurrences_iff]
      refine ⟨by simp; omega, ?_⟩
      rw [List.drop_append]
      exact hj.1
    have h2 : p.length + a.length ∈ occurrences pat (p ++ s) := by
      rw [hs]; exact mem_occurrences_append pat p a r
    have := occurrences_unique h h1 h2
    congr 1
    omega

/-- A non-empty marker that occurs once does not occur after its
occurrence. -/
theorem indexOf_after_once {pat p s : Str} (hpat : pat ≠ [])
    (h : (occurrences pat (p ++ pat ++ s)).length = 1) : indexOf pat s = none := by
  cases hj : indexOf pat s with
  | none => rfl
  | some j =>
    exfalso
    rw [indexOf_eq_some_iff] at hj
    have h1 : (p ++ pat).length + j ∈ occurrences pat (p ++ pat ++ s) := by
      rw [mem_occurrences_iff]
      refine ⟨by simp; omega, ?_⟩
      rw [List.drop_append]
      exact hj.1
    have h2 : p.length + 0 ∈ occurrences pat (p ++ pat ++ s) := by
      have := mem_occurrences_append pat p [] s
      simpa [List.append_assoc] using this
    have := occurrences_unique h h1 h2
    have hl : 0 < pat.length := List.length_pos.2 hpat
    simp at this
    omega

theorem not_hasTag_of_no_lt {s : Str} (h : '<' ∉ s) : ¬ HasTag s := by
  rintro ⟨t, ⟨x, _, _, ht⟩, hts⟩
  apply h
  apply hts.subset
  rw [ht]; simp

/-- The behaviour segment `raw.split("---JS---")[1] || ""` when the marker
occurs once: the text after it. -/
theorem jsSegment_of_once {p c : Str}
    (h : (occurrences "---JS---".toList (p ++ "---JS---".toList ++ c)).length = 1) :
    jsSegment (p ++ "---JS---".toList ++ c) = c := by
  have hne : "---JS---".toList ≠ [] := by decide
  have hi : indexOf "---JS---".toList (p ++ "---JS---".toList ++ c) = some p.length :=
    indexOf_of_once (p := []) (by simpa using h) rfl
  have hnone : indexOf "---JS---".toList c = none := indexOf_after_once hne h
  have hdrop : (p ++ "---JS---".toList ++ c).drop (p.length + "---JS---".toList.length) = c := by
    rw [← List.length_append, List.drop_left]
  unfold jsSegment
  rw [split_second hne hi, hdrop, hnone]
  rfl

/-- C3: in a text `pre ---HTML--- a ---CSS--- b ---JS--- c` that contains each
of the three markers exactly once, the markup segment is `trim a`, the style
segment is `trim b`, and the behaviour segment is `trim c` whenever `c`
contains no `<`. -/
theorem extraction_of_well_formed (pre a b c : Str)
    (hH : (occurrences "---HTML---".toList
      (pre ++ "---HTML---".toList ++ a ++ "---CSS---".toList ++ b ++ "---JS---".toList ++ c)).length = 1)
    (hC : (occurrences "---CSS---".toList
      (pre ++ "---HTML---".toList ++ a ++ "---CSS---".toList ++ b ++ "---JS---".toList ++ c)).length = 1)
    (hJ : (occurrences "---JS---".toList
      (pre ++ "---HTML---".toList ++ a ++ "---CSS---".toList ++ b ++ "---JS---".toList ++ c)).length = 1) :
    extractBetween
        (pre ++ "---HTML---".toList ++ a ++ "---CSS---".toList ++ b ++ "---JS---".toList ++ c)
        "---HTML---".toList "---CSS---".toList = some (trim a) ∧
    extractBetween
        (pre ++ "---HTML---".toList ++ a ++ "---CSS---".toList ++ b ++ "---JS---".toList ++ c)
        "---CSS---".toList "---JS---".toList = some (trim b) ∧
    ('<' ∉ c →
      sanitizeJS (jsSegment
        (pre ++ "---HTML---".toList ++ a ++ "---CSS---".toList ++ b ++ "---JS---".toList ++ c)) =
        trim c) := by
  have hHne : "---HTML---".toList ≠ [] := by decide
  have hCne : "---CSS---".toList ≠ [] := by decide
  have hJne : "---JS---".toList ≠ [] := by decide
  generalize hh : "---HTML---".toList = H at *
  generalize hc : "---CSS---".toList = C at *
  refine ⟨?_, ?_, ?_⟩
  · generalize hj : "---JS---".toList = J at *
    have e1 : pre ++ H ++ a ++ C ++ b ++ J ++ c = pre ++ H ++ (a ++ C ++ (b ++ J ++ c)) := by
      simp only [List.append_assoc]
    have hi : indexOf H (pre ++ H ++ a ++ C ++ b ++ J ++ c) = some pre.length :=
      indexOf_of_once (p := []) (r := a ++ C ++ (b ++ J ++ c)) (by simpa using hH)
        (by simp only [List.append_assoc])
    have hdrop : (pre ++ H ++ a ++ C ++ b ++ J ++ c).drop (pre.length + H.length) =
        a ++ C ++ (b ++ J ++ c) := by
      rw [e1, ← List.length_append, List.drop_left]
    have hj2 : indexOf C (a ++ C ++ (b ++ J ++ c)) = some a.length :=
      indexOf_of_once (p := pre ++ H) (by rw [← e1]; exact hC) rfl
    have hk : indexOf H (a ++ C ++ (b ++ J ++ c)) = none :=
      indexOf_after_once hHne (by rw [← e1]; exact hH)
    have := extractBetween_eq hHne hCne hi (by rw [hdrop]; exact hj2)
      (by rw [hdrop, hk]; intro k hk2; cases hk2)
    rw [this, hdrop, List.append_assoc, List.take_left]
  · generalize hj : "---JS---".toList = J at *
    have e1 : pre ++ H ++ a ++ C ++ b ++ J ++ c = (pre ++ H ++ a) ++ C ++ (b ++ J ++ c) := by
      simp only [List.append_assoc]
    have hi : indexOf C (pre ++ H ++ a ++ C ++ b ++ J ++ c) = some (pre ++ H ++ a).length :=
      indexOf_of_once (p := []) (r := b ++ J ++ c) (by simpa using hC) e1
    have hdrop : (pre ++ H ++ a ++ C ++ b ++ J ++ c).drop ((pre ++ H ++ a).length + C.length) =
        b ++ J ++ c := by
      rw [e1, ← List.length_append, List.drop_left]
    have hj2 : indexOf J (b ++ J ++ c) = some b.length :=
      indexOf_of_once (p := pre ++ H ++ a ++ C) (by
        have : pre ++ H ++ a ++ C ++ (b ++ J ++ c) = pre ++ H ++ a ++ C ++ b ++ J ++ c := by
          simp only [List.append_assoc]
        rw [this]; exact hJ) rfl
    have hk : indexOf C (b ++ J ++ c) = none :=
      indexOf_after_once hCne (by rw [← e1]; exact hC)
    have := extractBetween_eq hCne hJne hi (by rw [hdrop]; exact hj2)
      (by rw [hdrop, hk]; intro k hk2; cases hk2)
    rw [this, hdrop, List.append_assoc, List.take_left]
  · intro hlt
    rw [jsSegment_of_once hJ]
    exact sanitizeJS_eq_trim_of_not_hasTag (not_hasTag_of_no_lt hlt)

/-- C3, on the text `pre ---HTML--- A ---CSS--- B ---JS--- C`: the segments
are `A`, `B` and `C`. -/
theorem extraction_of_well_formed_witness :
    extractBetween "pre ---HTML--- A ---CSS--- B ---JS--- C".toList
        "---HTML---".toList "---CSS---".toList = some "A".toList ∧
    extractBetween "pre ---HTML--- A ---CSS--- B ---JS--- C".toList
        "---CSS---".toList "---JS---".toList = some "B".toList ∧
    sanitizeJS (jsSegment "pre ---HTML--- A ---CSS--- B ---JS--- C".toList) = "C".toList := by
  have h := extraction_of_well_formed "pre ".toList " A ".toList " B ".toList " C".toList
    (by decide) (by decide) (by decide)
  exact ⟨h.1, h.2.1, h.2.2 (by decide)⟩

/-! ## The handler after the response -/

/-- C4: on every display and every raw completion the two marker extractions
raise no exception; when one of the three segments is empty the outcome is
`invalidBundle` and the display is unchanged; otherwise the three panes are
replaced by the three (non-empty) segments and the preview by the document
composed from them. -/
theorem processCompletion_spec (st : Display) (raw : Str) :
    ∃ html cssRaw,
      extractBetween (cleanAIText raw) "---HTML---".toList "---CSS---".toList = some html ∧
      extractBetween (cleanAIText raw) "---CSS---".toList "---JS---".toList = some cssRaw ∧
      ((html = [] ∨ sanitizeCSS cssRaw = [] ∨ sanitizeJS (jsSegment (cleanAIText raw)) = []) →
        processCompletion st raw = (st, Outcome.invalidBundle)) ∧
      (html ≠ [] → sanitizeCSS cssRaw ≠ [] → sanitizeJS (jsSegment (cleanAIText raw)) ≠ [] →
        processCompletion st raw =
          ({ htmlPane := html, cssPane := sanitizeCSS cssRaw,
             jsPane := sanitizeJS (jsSegment (cleanAIText raw)),
             preview := some (updatePreview html (sanitizeCSS cssRaw)
               (sanitizeJS (jsSegment (cleanAIText raw)))) }, Outcome.previewed)) := by
  obtain ⟨html, h1⟩ := @extractBetween_isSome (cleanAIText raw)
    "---HTML---".toList "---CSS---".toList (by decide) (by decide)
  obtain ⟨cssRaw, h2⟩ := @extractBetween_isSome (cleanAIText raw)
    "---CSS---".toList "---JS---".toList (by decide) (by decide)
  refine ⟨html, cssRaw, h1, h2, ?_, ?_⟩
  · intro h
    unfold processCompletion
    simp only [h1, h2]
    rw [if_pos]
    rcases h with h | h | h <;> simp [h]
  · intro ha hb hc
    unfold processCompletion
    simp only [h1, h2]
    rw [if_neg]
    simp [List.isEmpty_iff, ha, hb, hc]

/-- C4, on a display showing an earlier bundle: a completion without the style
marker leaves it unchanged, a well-formed completion replaces it. -/
theorem processCompletion_spec_witness :
    processCompletion ⟨"<p>old</p>".toList, "p\x7b\x7d".toList, "f()".toList, some "old".toList⟩
        "---HTML---<p>new</p>---JS---g()".toList =
      (⟨"<p>old</p>".toList, "p\x7b\x7d".toList, "f()".toList, some "old".toList⟩,
        Outcome.invalidBundle) ∧
    (processCompletion ⟨"<p>old</p>".toList, "p\x7b\x7d".toList, "f()".toList, some "old".toList⟩
        "---HTML---<p>new</p>---CSS---p\x7bcolor:red\x7d---JS---g()".toList).1.htmlPane =
      "<p>new</p>".toList := by
  obtain ⟨html, cssRaw, h1, h2, h3, _⟩ := processCompletion_spec
    ⟨"<p>old</p>".toList, "p\x7b\x7d".toList, "f()".toList, some "old".toList⟩
    "---HTML---<p>new</p>---JS---g()".toList
  refine ⟨h3 (Or.inl ?_), by decide⟩
  have : extractBetween (cleanAIText "---HTML---<p>new</p>---JS---g()".toList)
      "---HTML---".toList "---CSS---".toList = some [] := by decide
  rw [this] at h1
  exact (Option.some.inj h1).symm

/-! ## `updatePreview` -/

/-- C6 fails on the code: a script tag whose `src` value is not quoted is not
matched by the expression of `updatePreview` and stays in the composed
document, here for a completion that the handler accepts. -/
theorem updatePreview_keeps_unquoted_external_script :
    (processCompletion ⟨[], [], [], none⟩
      "---HTML---\n<html><body><script src=x.js></script></body></html>\n---CSS---\np\x7b\x7d\n---JS---\nf()".toList).2
      = Outcome.previewed ∧
    (processCompletion ⟨[], [], [], none⟩
      "---HTML---\n<html><body><script src=x.js></script></body></html>\n---CSS---\np\x7b\x7d\n---JS---\nf()".toList).1.htmlPane
      = "<html><body><script src=x.js></script></body></html>".toList ∧
    "<script src=x.js></script>".toList <:+:
      updatePreview "<html><body><script src=x.js></script></body></html>".toList
        "p\x7b\x7d".toList "f()".toList := by
  decide!

/-- C6 fails on the code also for a quoted `src` when anything stands between
the opening and the closing tag. -/
theorem updatePreview_keeps_external_script_with_content :
    "<script src=\"x.js\"> </script>".toList <:+:
      updatePreview "<html><body><script src=\"x.js\"> </script></body></html>".toList
        "p\x7b\x7d".toList "f()".toList := by
  decide!

/-- C7 fails on the code: for a markup whose root tag carries an attribute and
that has no head section, no head is synthesized and the style segment is not
injected at all. -/
theorem updatePreview_no_head_no_style :
    updatePreview "<html lang=\"en\"><body>hi</body></html>".toList "p\x7b\x7d".toList "f()".toList =
      ("\n<html lang=\"en\"><body>hi</body></html>\n<script>\ntry \x7b\nf()\n\x7d catch (e) \x7b\n  document.body.innerHTML =\n    \x27<pre style=\"color:red;font-family:monospace;\">Runtime Error: \x27 +\n    e.message +\n    \x27</pre>\x27;\n\x7d\n</script>\n").toList ∧
    ¬ "<style>".toList <:+:
      updatePreview "<html lang=\"en\"><body>hi</body></html>".toList "p\x7b\x7d".toList "f()".toList ∧
    ¬ "<head>".toList <:+:
      updatePreview "<html lang=\"en\"><body>hi</body></html>".toList "p\x7b\x7d".toList "f()".toList := by
  decide!

/-! ## `sanitizeCSS` -/

/-- C8 fails on the code: the rules are not returned unchanged when they begin
with the selector `html`.  The expression `/^\s*(html|javascript)\s*/gi`,
written to remove stray labels, is not anchored to a whole line (as the label
expression of `cleanAIText` is), so it cuts the selector `html` off a real
rule: `html{margin:0}` becomes `{margin:0}`, and
`html, body { margin: 0 }` becomes `, body { margin: 0 }`.  Both
rule texts are non-empty and have no leading or trailing white space.  The
handler reaches the defect: on a completion whose style segment is
`html, body { margin: 0 }` it accepts the bundle and shows the damaged
rule in the style pane. -/
theorem sanitizeCSS_strips_html_selector :
    ("html\x7bmargin:0\x7d".toList ≠ [] ∧
      trim "html\x7bmargin:0\x7d".toList = "html\x7bmargin:0\x7d".toList ∧
      sanitizeCSS ("css\n".toList ++ "html\x7bmargin:0\x7d".toList) =
        "\x7bmargin:0\x7d".toList) ∧
    ("html, body \x7b margin: 0 \x7d".toList ≠ [] ∧
      trim "html, body \x7b margin: 0 \x7d".toList = "html, body \x7b margin: 0 \x7d".toList ∧
      sanitizeCSS ("css\n".toList ++ "html, body \x7b margin: 0 \x7d".toList) =
        ", body \x7b margin: 0 \x7d".toList) ∧
    (processCompletion ⟨[], [], [], none⟩
        "---HTML---\n<p>hi</p>\n---CSS---\nhtml, body \x7b margin: 0 \x7d\n---JS---\nf()".toList).2 =
      Outcome.previewed ∧
    (processCompletion ⟨[], [], [], none⟩
        "---HTML---\n<p>hi</p>\n---CSS---\nhtml, body \x7b margin: 0 \x7d\n---JS---\nf()".toList).1.cssPane =
      ", body \x7b margin: 0 \x7d".toList := by
  decide!

theorem matchAt_reCssLabel (x : Char) (r : Str) (hx : isWhiteSpace x = false) :
    matchAt false reCssLabel none ('c' :: 's' :: 's' :: '\n' :: x :: r) =
      some ⟨some '\n', x :: r⟩ := by
  have h1 : isWhiteSpace 'c' = false := by decide
  have h2 : isWhiteSpace '\n' = true := by decide
  have h3 : sameChar true 'c' 'c' = true := by decide
  have h4 : sameChar true 's' 's' = true := by decide
  have e : "css".toList = ['c', 's', 's'] := rfl
  simp [matchAt, reCssLabel, cat, reSpaces, lits, lit, run, runRep, atLineStart, e, h1, h2, h3,
    h4, hx, underBound]

theorem lastOf_some_ne_none (c : Char) (b : Str) : lastOf (some c) b ≠ none := by
  induction b generalizing c with
  | nil => simp [lastOf]
  | cons d b ih => rw [lastOf_cons]; exact ih d

theorem lastOf_none_eq_none {b : Str} (h : lastOf none b = none) : b = [] := by
  cases b with
  | nil => rfl
  | cons c b => rw [lastOf_cons] at h; exact absurd h (lastOf_some_ne_none c b)

/-- The code unit before a position that is not the start of the subject is
the last one of the text read so far. -/
theorem lastOf_none_eq_some {b : Str} {c : Char} (h : lastOf none b = some c) :
    ∃ b', b = b' ++ [c] := by
  rcases List.eq_nil_or_concat b with h0 | ⟨b', d, h0⟩
  · subst h0; cases h
  · rw [List.concat_eq_append] at h0
    subst h0
    rw [lastOf_append_singleton] at h
    exact ⟨b', by rw [Option.some.inj h]⟩

theorem atLineStart_false_iff (prev : Option Char) : atLineStart false prev = true ↔ prev = none := by
  cases prev <;> simp [atLineStart]

theorem forall₂_sameChar_true_iff (x w : Str) :
    List.Forall₂ (fun d c => sameChar true c d = true) x w ↔
      x.map canonicalize = w.map canonicalize := by
  constructor
  · intro h
    induction h with
    | nil => rfl
    | cons h1 _ ih =>
      simp only [sameChar, if_true, beq_iff_eq] at h1
      simp only [List.map_cons, h1, ih]
  · intro h
    induction x generalizing w with
    | nil =>
      cases w with
      | nil => exact List.Forall₂.nil
      | cons c w => simp at h
    | cons d x ih =>
      cases w with
      | nil => simp at h
      | cons c w =>
        simp only [List.map_cons, List.cons.injEq] at h
        exact List.Forall₂.cons (by simp [sameChar, h.1]) (ih w h.2)

theorem removeFirst_reCssLabel (r : Str) (hne : r ≠ []) (htrim : trim r = r) :
    removeFirst false reCssLabel ("css\n".toList ++ r) = r := by
  obtain ⟨x, r', hr⟩ := List.exists_cons_of_ne_nil hne
  have hx : isWhiteSpace x = false := by
    apply trim_head r
    rw [htrim, hr]; rfl
  subst hr
  show removeFirstFrom false reCssLabel none ('c' :: 's' :: 's' :: '\n' :: x :: r') = x :: r'
  unfold removeFirstFrom
  rw [matchAt_reCssLabel x r' hx]

theorem html_toList : "html".toList = ['h', 't', 'm', 'l'] := rfl

theorem javascript_toList :
    "javascript".toList = ['j', 'a', 'v', 'a', 's', 'c', 'r', 'i', 'p', 't'] := rfl

/-- On a text without leading white space that does not begin with `html` or
`javascript`, the expression `/^\s*(html|javascript)\s*/gi` matches
nowhere. -/
theorem removeAll_reStrayLabel (r : Str)
    (hhead : ∀ c, r.head? = some c → isWhiteSpace c = false)
    (h1 : startsWithIgnoreCase "html".toList r = false)
    (h2 : startsWithIgnoreCase "javascript".toList r = false) :
    removeAll false reStrayLabel r = r := by
  apply removeAll_eq_self
  intro b t hbt
  rw [matchAt_eq_none_iff]
  intro x after hx hden
  have hre : reStrayLabel = .seq .bol (.seq reSpaces
      (.seq (.alt (lits true "html".toList) (lits true "javascript".toList)) reSpaces)) := rfl
  rw [hre, den_seq_iff] at hden
  obtain ⟨x0, x1, hx01, hbol, hden⟩ := hden
  rw [den_bol_iff, atLineStart_false_iff] at hbol
  obtain ⟨hx0, hprev⟩ := hbol
  have hb : b = [] := lastOf_none_eq_none hprev
  subst hx0 hb
  rw [den_seq_iff] at hden
  obtain ⟨ws1, x2, hx2, hws1, hden⟩ := hden
  rw [reSpaces, den_rep_iff] at hws1
  rw [den_seq_iff] at hden
  obtain ⟨w, ws2, hx3, hw, _⟩ := hden
  have hws1nil : ws1 = [] := by
    cases ws1 with
    | nil => rfl
    | cons c ws1 =>
      have hc := hws1.1 c (List.mem_cons_self _ _)
      have := hhead c (by rw [hbt, hx, hx01, hx2]; rfl)
      rw [hc] at this; cases this
  subst hws1nil
  have hr : r = w ++ (ws2 ++ after) := by
    rw [hbt, hx, hx01, hx2, hx3]; simp
  rw [den_alt_iff, den_lits_iff _ _ _ (by decide), den_lits_iff _ _ _ (by decide),
    forall₂_sameChar_true_iff, forall₂_sameChar_true_iff] at hw
  rcases hw with hw | hw
  · have hl : w.length = "html".toList.length := by
      have := congrArg List.length hw
      simpa using this
    have : startsWithIgnoreCase "html".toList r = true := by
      unfold startsWithIgnoreCase
      rw [hr, ← hl, List.take_left, hw]
      simp
    rw [h1] at this; cases this
  · have hl : w.length = "javascript".toList.length := by
      have := congrArg List.length hw
      simpa using this
    have : startsWithIgnoreCase "javascript".toList r = true := by
      unfold startsWithIgnoreCase
      rw [hr, ← hl, List.take_left, hw]
      simp
    rw [h2] at this; cases this

/-- Where the label line is stripped as intended: for non-empty rules `r`
without leading or trailing white space that have neither `html` nor
`javascript` as a prefix (in any letter case), `sanitizeCSS` applied to the
label line `css` followed by `r` returns `r` unchanged. -/
theorem sanitizeCSS_label_line (r : Str) (hne : r ≠ []) (htrim : trim r = r)
    (h1 : startsWithIgnoreCase "html".toList r = false)
    (h2 : startsWithIgnoreCase "javascript".toList r = false) :
    sanitizeCSS ("css\n".toList ++ r) = r := by
  unfold sanitizeCSS
  rw [removeFirst_reCssLabel r hne htrim,
    removeAll_reStrayLabel r (fun c hc => trim_head r c (by rw [htrim]; exact hc)) h1 h2, htrim]

/-- The label line `css` followed by a rule for `body`: the rule is returned
unchanged. -/
theorem sanitizeCSS_label_line_witness :
    sanitizeCSS ("css\n".toList ++ "body \x7b margin: 0; \x7d".toList) =
      "body \x7b margin: 0; \x7d".toList :=
  sanitizeCSS_label_line "body \x7b margin: 0; \x7d".toList (by decide) (by decide) (by decide)
    (by decide)

/-! ## Lines -/

theorem isWhiteSpace_of_isLineTerminator {c : Char} (h : isLineTerminator c = true) :
    isWhiteSpace c = true := by
  simp only [isLineTerminator, Bool.or_eq_true, decide_eq_true_eq] at h
  simp only [isWhiteSpace, Bool.or_eq_true, decide_eq_true_eq, Bool.and_eq_true]
  omega

theorem isLineTerminator_of_not_isWhiteSpace {c : Char} (h : isWhiteSpace c = false) :
    isLineTerminator c = false := by
  cases hlt : isLineTerminator c with
  | false => rfl
  | true => rw [isWhiteSpace_of_isLineTerminator hlt] at h; cases h

theorem lines_ne_nil (s : Str) : lines s ≠ [] := by
  cases s with
  | nil => simp [lines]
  | cons c cs =>
    unfold lines
    split
    · simp
    · split <;> simp

theorem lines_cons (c : Char) (cs : Str) :
    lines (c :: cs) =
      if isLineTerminator c then [] :: lines cs
      else
        match lines cs with
        | [] => [[c]]
        | l :: ls => (c :: l) :: ls := by
  rw [lines]

theorem lines_append_lineTerminator (a b : Str) (c : Char) (hc : isLineTerminator c = true) :
    lines (a ++ c :: b) = lines a ++ lines b := by
  induction a with
  | nil =>
    rw [List.nil_append, lines_cons, if_pos hc]
    rfl
  | cons d a ih =>
    rw [List.cons_append, lines_cons d (a ++ c :: b), lines_cons d a, ih]
    by_cases hd : isLineTerminator d = true
    · rw [if_pos hd, if_pos hd]; rfl
    · rw [if_neg hd, if_neg hd]
      obtain ⟨l, ls, hl⟩ := List.exists_cons_of_ne_nil (lines_ne_nil a)
      rw [hl]
      rfl

theorem lines_of_no_lineTerminator (l : Str) (h : ∀ c ∈ l, isLineTerminator c = false) :
    lines l = [l] := by
  induction l with
  | nil => rfl
  | cons c l ih =>
    rw [lines_cons, ih (fun d hd => h d (List.mem_cons_of_mem _ hd))]
    simp [h c (List.mem_cons_self _ _)]

/-- A piece of a text that holds no line terminator, is preceded by nothing or
by a line terminator and is followed by nothing or by a line terminator, is one
of the lines of the text. -/
theorem mem_lines_of_decomp {t a l b : Str} (ht : t = a ++ l ++ b)
    (hl : ∀ c ∈ l, isLineTerminator c = false)
    (ha : a = [] ∨ ∃ a' c, a = a' ++ [c] ∧ isLineTerminator c = true)
    (hb : b = [] ∨ ∃ c b', b = c :: b' ∧ isLineTerminator c = true) : l ∈ lines t := by
  have hright : l ∈ lines (l ++ b) := by
    rcases hb with hb | ⟨c, b', hb, hc⟩
    · subst hb; simp [lines_of_no_lineTerminator l hl]
    · subst hb
      rw [lines_append_lineTerminator _ _ _ hc, lines_of_no_lineTerminator l hl]
      simp
  rcases ha with ha | ⟨a', c, ha, hc⟩
  · subst ha; rw [ht]; simpa using hright
  · subst ha
    rw [ht, List.append_assoc, List.append_assoc, List.singleton_append,
      lines_append_lineTerminator _ _ _ hc]
    exact List.mem_append_right _ hright

/-- The text is split after its last line terminator. -/
theorem split_after_last_lineTerminator (w : Str) :
    ∃ u v, w = u ++ v ∧ (∀ c ∈ v, isLineTerminator c = false) ∧
      (u = [] ∨ ∃ u' c, u = u' ++ [c] ∧ isLineTerminator c = true) := by
  induction w using List.reverseRecOn with
  | nil => exact ⟨[], [], rfl, by simp, Or.inl rfl⟩
  | append_singleton l c ih =>
    by_cases hc : isLineTerminator c = true
    · exact ⟨l ++ [c], [], by simp, by simp, Or.inr ⟨l, c, rfl, hc⟩⟩
    · obtain ⟨u, v, huv, hv, hu⟩ := ih
      refine ⟨u, v ++ [c], by rw [huv, List.append_assoc], ?_, hu⟩
      intro d hd
      rcases List.mem_append.1 hd with h | h
      · exact hv d h
      · rw [List.mem_singleton.1 h]; simpa using hc

/-- The text is split before its first line terminator. -/
theorem split_before_first_lineTerminator (w : Str) :
    ∃ v u, w = v ++ u ∧ (∀ c ∈ v, isLineTerminator c = false) ∧
      (u = [] ∨ ∃ c u', u = c :: u' ∧ isLineTerminator c = true) := by
  induction w with
  | nil => exact ⟨[], [], rfl, by simp, Or.inl rfl⟩
  | cons c w ih =>
    by_cases hc : isLineTerminator c = true
    · exact ⟨[], c :: w, rfl, by simp, Or.inr ⟨c, w, rfl, hc⟩⟩
    · obtain ⟨v, u, hvu, hv, hu⟩ := ih
      refine ⟨c :: v, u, by rw [hvu]; rfl, ?_, hu⟩
      intro d hd
      rcases List.mem_cons.1 hd with h | h
      · rw [h]; simpa using hc
      · exact hv d h

/-- The position before which the subject is at a line start. -/
theorem atLineStart_true_lastOf {b : Str} (h : atLineStart true (lastOf none b) = true) :
    b = [] ∨ ∃ b' c, b = b' ++ [c] ∧ isLineTerminator c = true := by
  cases hl : lastOf none b with
  | none => exact Or.inl (lastOf_none_eq_none hl)
  | some c =>
    rw [hl] at h
    obtain ⟨b', hb⟩ := lastOf_none_eq_some hl
    exact Or.inr ⟨b', c, hb, by simpa [atLineStart] using h⟩

theorem atLineEnd_true_iff (s : Str) :
    atLineEnd true s = true ↔ s = [] ∨ ∃ c s', s = c :: s' ∧ isLineTerminator c = true := by
  cases s with
  | nil => simp [atLineEnd]
  | cons c s => simp [atLineEnd]

/-! ## `trim` of a padded word -/

theorem dropWhile_eq_self_of_head {p : Char → Bool} {c : Char} {l : Str} (h : p c = false) :
    (c :: l).dropWhile p = c :: l := by
  simp [List.dropWhile, h]

theorem trim_pad (v w u : Str) (hv : ∀ c ∈ v, isWhiteSpace c = true)
    (hu : ∀ c ∈ u, isWhiteSpace c = true) (hw : ∀ c ∈ w, isWhiteSpace c = false) :
    trim (v ++ w ++ u) = w := by
  rcases List.eq_nil_or_concat w with h0 | ⟨w', e, h0⟩
  · subst h0
    unfold trim
    rw [List.append_nil, List.dropWhile_eq_nil_iff.2]
    · rfl
    · intro c hc
      rcases List.mem_append.1 hc with h | h
      · exact hv c h
      · exact hu c h
  · rw [List.concat_eq_append] at h0
    unfold trim
    rw [List.append_assoc, List.dropWhile_append_of_pos hv]
    have hd : (w ++ u).dropWhile isWhiteSpace = w ++ u := by
      subst h0
      cases w' with
      | nil => exact dropWhile_eq_self_of_head (hw e (by simp))
      | cons d w' => exact dropWhile_eq_self_of_head (hw d (by simp))
    rw [hd, List.rdropWhile, List.reverse_append, List.dropWhile_append_of_pos
      (fun c hc => hu c (List.mem_reverse.1 hc)), h0, List.reverse_append, List.reverse_singleton,
      List.singleton_append, dropWhile_eq_self_of_head (hw e (by rw [h0]; simp))]
    simp

/-! ## `cleanAIText` on clean text -/

theorem canonicalize_of_isWhiteSpace {c : Char} (h : isWhiteSpace c = true) :
    canonicalize c = c := by
  simp only [isWhiteSpace, Bool.or_eq_true, decide_eq_true_eq, Bool.and_eq_true] at h
  unfold canonicalize
  rw [if_neg]
  omega

theorem not_isWhiteSpace_of_map_canonicalize {w u : Str} (h : w.map canonicalize = u)
    (hu : ∀ c ∈ u, isWhiteSpace c = false) : ∀ c ∈ w, isWhiteSpace c = false := by
  intro c hc
  cases hws : isWhiteSpace c with
  | false => rfl
  | true =>
    have hmem : canonicalize c ∈ u := by rw [← h]; exact List.mem_map_of_mem _ hc
    rw [canonicalize_of_isWhiteSpace hws] at hmem
    rw [hu c hmem] at hws; cases hws

theorem reLabelLine_eq :
    reLabelLine = .seq .bol (.seq reSpaces (.seq
      (.alt (lits true "html".toList) (.alt (lits true "css".toList) (lits true "javascript".toList)))
      (.seq reSpaces .eol))) := rfl

/-- What a match of `/^\s*(html|css|javascript)\s*$/im` looks like. -/
theorem den_reLabelLine {prev : Option Char} {x after : Str}
    (h : Den true reLabelLine prev x after) :
    atLineStart true prev = true ∧ atLineEnd true after = true ∧
    ∃ ws1 w ws2, x = ws1 ++ w ++ ws2 ∧ (∀ c ∈ ws1, isWhiteSpace c = true) ∧
      (∀ c ∈ ws2, isWhiteSpace c = true) ∧
      (w.map canonicalize = "HTML".toList ∨ w.map canonicalize = "CSS".toList ∨
        w.map canonicalize = "JAVASCRIPT".toList) := by
  rw [reLabelLine_eq, den_seq_iff] at h
  obtain ⟨x0, x1, hx01, hbol, h⟩ := h
  rw [den_bol_iff] at hbol
  obtain ⟨hx0, hstart⟩ := hbol
  subst hx0
  rw [den_seq_iff] at h
  obtain ⟨ws1, x2, hx2, hws1, h⟩ := h
  rw [reSpaces, den_rep_iff] at hws1
  rw [den_seq_iff] at h
  obtain ⟨w, x3, hx3, hw, h⟩ := h
  rw [den_seq_iff] at h
  obtain ⟨ws2, x4, hx4, hws2, heol⟩ := h
  rw [reSpaces, den_rep_iff] at hws2
  rw [den_eol_iff] at heol
  obtain ⟨hx4n, hend⟩ := heol
  subst hx4n
  refine ⟨hstart, hend, ws1, w, ws2, ?_, hws1.1, hws2.1, ?_⟩
  · rw [hx01, hx2, hx3, hx4]; simp
  · rw [den_alt_iff, den_alt_iff, den_lits_iff _ _ _ (by decide),
      den_lits_iff _ _ _ (by decide), den_lits_iff _ _ _ (by decide),
      forall₂_sameChar_true_iff, forall₂_sameChar_true_iff, forall₂_sameChar_true_iff] at hw
    rcases hw with hw | hw | hw
    · exact Or.inl (hw.trans (by decide))
    · exact Or.inr (Or.inl (hw.trans (by decide)))
    · exact Or.inr (Or.inr (hw.trans (by decide)))

/-- In a text none of whose lines is a label, the label expression matches
nowhere. -/
theorem removeAll_reLabelLine_eq_self (t : Str) (h : ∀ l ∈ lines t, isLabel l = false) :
    removeAll true reLabelLine t = t := by
  apply removeAll_eq_self
  intro b s hbs
  rw [matchAt_eq_none_iff]
  intro x after hx hden
  obtain ⟨hstart, hend, ws1, w, ws2, hxw, hws1, hws2, hw⟩ := den_reLabelLine hden
  obtain ⟨u1, v1, huv1, hv1, hu1⟩ := split_after_last_lineTerminator ws1
  obtain ⟨v2, u2, hvu2, hv2, hu2⟩ := split_before_first_lineTerminator ws2
  have hwns : ∀ c ∈ w, isWhiteSpace c = false := by
    rcases hw with hw | hw | hw
    · exact not_isWhiteSpace_of_map_canonicalize hw (by decide)
    · exact not_isWhiteSpace_of_map_canonicalize hw (by decide)
    · exact not_isWhiteSpace_of_map_canonicalize hw (by decide)
  have hmem : v1 ++ w ++ v2 ∈ lines t := by
    apply mem_lines_of_decomp (a := b ++ u1) (b := u2 ++ after)
    · rw [hbs, hx, hxw, huv1, hvu2]; simp only [List.append_assoc]
    · intro c hc
      rcases List.mem_append.1 hc with h1 | h1
      · rcases List.mem_append.1 h1 with h2 | h2
        · exact hv1 c h2
        · exact isLineTerminator_of_not_isWhiteSpace (hwns c h2)
      · exact hv2 c h1
    · rcases hu1 with hu1 | ⟨u', c, hu1, hc⟩
      · subst hu1
        rw [List.append_nil]
        exact atLineStart_true_lastOf hstart
      · exact Or.inr ⟨b ++ u', c, by rw [hu1, List.append_assoc], hc⟩
    · rcases hu2 with hu2 | ⟨c, u', hu2, hc⟩
      · subst hu2
        rw [List.nil_append]
        exact (atLineEnd_true_iff after).1 hend
      · exact Or.inr ⟨c, u' ++ after, by rw [hu2]; rfl, hc⟩
  have hlab : isLabel (v1 ++ w ++ v2) = true := by
    unfold isLabel
    rw [trim_pad v1 w v2 (fun c hc => hws1 c (by rw [huv1]; exact List.mem_append_right _ hc))
      (fun c hc => hws2 c (by rw [hvu2]; exact List.mem_append_left _ hc)) hwns]
    rcases hw with hw | hw | hw <;> simp [hw]
  rw [h _ hmem] at hlab
  cases hlab

theorem reHeading_eq :
    reHeading = .seq .bol (.seq (.rep (fun c => c == '#') 1 (some 6) true)
      (.seq (.rep dot 0 none true) .eol)) := rfl

/-- What a match of `/^#{1,6}.*$/m` looks like: it starts a line and begins
with `#`. -/
theorem den_reHeading {prev : Option Char} {x after : Str}
    (h : Den true reHeading prev x after) :
    atLineStart true prev = true ∧ ∃ y, x = '#' :: y := by
  rw [reHeading_eq, den_seq_iff] at h
  obtain ⟨x0, x1, hx01, hbol, h⟩ := h
  rw [den_bol_iff] at hbol
  obtain ⟨hx0, hstart⟩ := hbol
  subst hx0
  rw [den_seq_iff] at h
  obtain ⟨hs, x2, hx2, hhash, _⟩ := h
  rw [den_rep_iff] at hhash
  obtain ⟨hall, hlen, _⟩ := hhash
  cases hs with
  | nil => simp at hlen
  | cons c hs =>
    have hc : c = '#' := by simpa using hall c (List.mem_cons_self _ _)
    subst hc
    exact ⟨hstart, hs ++ x2, by rw [hx01, hx2]; rfl⟩

/-- In a text none of whose lines begins with `#`, the heading expression
matches nowhere. -/
theorem removeAll_reHeading_eq_self (t : Str) (h : ∀ l ∈ lines t, l.head? ≠ some '#') :
    removeAll true reHeading t = t := by
  apply removeAll_eq_self
  intro b s hbs
  rw [matchAt_eq_none_iff]
  intro x after hx hden
  obtain ⟨hstart, y, hy⟩ := den_reHeading hden
  obtain ⟨v, u, hvu, hv, hu⟩ := split_before_first_lineTerminator (y ++ after)
  have hmem : '#' :: v ∈ lines t := by
    apply mem_lines_of_decomp (a := b) (b := u)
    · rw [hbs, hx, hy, List.cons_append, hvu]; simp
    · intro c hc
      rcases List.mem_cons.1 hc with h1 | h1
      · rw [h1]; decide
      · exact hv c h1
    · exact atLineStart_true_lastOf hstart
    · exact hu
  exact h _ hmem rfl

theorem fence_toList : "```".toList = [Char.ofNat 96, Char.ofNat 96, Char.ofNat 96] := rfl

/-- In a text without three consecutive backticks the fence expression
matches nowhere. -/
theorem removeAll_reFence_eq_self (t : Str) (h : ¬ "```".toList <:+: t) :
    removeAll false reFence t = t := by
  apply removeAll_eq_self
  intro b s hbs
  rw [matchAt_eq_none_iff]
  intro x after hx hden
  rw [reFence, den_lits_false_iff _ _ (by decide)] at hden
  apply h
  exact ⟨b, after, by rw [hbs, hx, hden, List.append_assoc]⟩

/-- C9, as stated, fails: a heading mark behind leading white space is at the
start of the text only after `trim`, so the second application removes a line
that the first one kept. -/
theorem cleanAIText_not_idempotent_counterexample :
    cleanAIText " #a".toList = "#a".toList ∧
    cleanAIText (cleanAIText " #a".toList) = [] ∧
    cleanAIText (cleanAIText " #a".toList) ≠ cleanAIText " #a".toList := by
  decide

/-- A text that has no three consecutive backticks, no line consisting solely
of `html`, `css` or `javascript`, no line beginning with `#`, and no leading or
trailing white space is returned unchanged by `cleanAIText`. -/
theorem cleanAIText_of_clean (t : Str) (hfence : ¬ "```".toList <:+: t)
    (hlabel : ∀ l ∈ lines t, isLabel l = false)
    (hhead : ∀ l ∈ lines t, l.head? ≠ some '#')
    (htrim : trim t = t) : cleanAIText t = t := by
  unfold cleanAIText
  rw [removeAll_reFence_eq_self t hfence, removeAll_reLabelLine_eq_self t hlabel,
    removeAll_reHeading_eq_self t hhead, htrim]

/-! ## What deleting the matches of a line-anchored expression leaves -/

/-- The text computed by `removeAllFrom`, given enough iterations, is obtained
by keeping code units where the expression does not match and dropping
matches. -/
theorem removeAllFrom_deleted (ml : Bool) (re : RE)
    (hne : ∀ prev x after, Den ml re prev x after → x ≠ [])
    (n : Nat) (prev : Option Char) (s : Str) (hn : s.length ≤ n) :
    Deleted ml re prev s (removeAllFrom ml re n prev s) := by
  induction n generalizing prev s with
  | zero =>
    have : s = [] := List.length_eq_zero.1 (by omega)
    subst this
    exact Deleted.done prev
  | succ n ih =>
    cases s with
    | nil => exact Deleted.done prev
    | cons c cs =>
      simp only [List.length_cons, Nat.add_le_add_iff_right] at hn
      simp only [removeAllFrom]
      cases hm : matchAt ml re prev (c :: cs) with
      | none => exact Deleted.keep prev c cs _ hm (ih _ _ hn)
      | some z =>
        simp only
        obtain ⟨x, hx, hp, hden⟩ := matchAt_eq_some hm
        have hx0 := hne _ _ _ hden
        have hl : (c :: cs).length = x.length + z.rest.length := by rw [hx]; simp
        have hxl : 0 < x.length := List.length_pos.2 hx0
        have hlt : z.rest.length < (c :: cs).length := by omega
        rw [if_pos hlt, hx, hp]
        apply Deleted.drop prev x z.rest _ hden hx0
        apply ih
        simp only [List.length_cons] at hl
        omega

theorem removeAll_deleted (ml : Bool) (re : RE)
    (hne : ∀ prev x after, Den ml re prev x after → x ≠ []) (s : Str) :
    Deleted ml re none s (removeAll ml re s) :=
  removeAllFrom_deleted ml re hne _ none s (Nat.le_refl _)

theorem lastOf_some_no_lineTerminator {c : Char} {k : Str} (hc : isLineTerminator c = false)
    (hk : ∀ d ∈ k, isLineTerminator d = false) :
    ∃ e, lastOf (some c) k = some e ∧ isLineTerminator e = false := by
  induction k generalizing c with
  | nil => exact ⟨c, rfl, hc⟩
  | cons d k ih =>
    rw [lastOf_cons]
    exact ih (hk d (List.mem_cons_self _ _)) (fun e he => hk e (List.mem_cons_of_mem _ he))

/-- Behind a code unit that is no line terminator, a block without line
terminators that was kept stands as it is in the text before deletion. -/
theorem deleted_keep_block {re : RE} (hre : LineAnchored re) {c : Char}
    (hc : isLineTerminator c = false) {k : Str} (hk : ∀ d ∈ k, isLineTerminator d = false)
    {s b : Str} (h : Deleted true re (some c) s (k ++ b)) :
    ∃ b', s = k ++ b' ∧ Deleted true re (lastOf (some c) k) b' b := by
  induction k generalizing c s with
  | nil => exact ⟨s, rfl, h⟩
  | cons e k ih =>
    generalize hout : (e :: k) ++ b = out at h
    cases h with
    | done => cases hout
    | keep _ c' s' out' hnone hrest =>
      simp only [List.cons_append, List.cons.injEq] at hout
      obtain ⟨he, hout'⟩ := hout
      subst he hout'
      obtain ⟨b', hs', hd⟩ := ih (hk e (List.mem_cons_self _ _))
        (fun d hd => hk d (List.mem_cons_of_mem _ hd)) hrest
      exact ⟨b', by rw [hs']; rfl, by rw [lastOf_cons]; exact hd⟩
    | drop _ x after _ hden hx hrest =>
      have := (hre _ _ _ hden).2.1
      simp only [atLineStart, Bool.true_and] at this
      rw [hc] at this; cases this

/-- Behind a code unit that is no line terminator, what is left ends a line
only if the text before deletion does. -/
theorem deleted_atLineEnd {re : RE} (hre : LineAnchored re) {c : Char}
    (hc : isLineTerminator c = false) {s b : Str} (h : Deleted true re (some c) s b)
    (hb : atLineEnd true b = true) : atLineEnd true s = true := by
  cases h with
  | done => rfl
  | keep _ d s' out' hnone hrest => exact hb
  | drop _ x after _ hden hx hrest =>
    have := (hre _ _ _ hden).2.1
    simp only [atLineStart, Bool.true_and] at this
    rw [hc] at this; cases this

/-- A block without line terminators that stands at a line start in what is
left stood at a line start in the text before deletion, at a position where
the expression did not match. -/
theorem deleted_block_at_lineStart {re : RE} (hre : LineAnchored re) {prev : Option Char}
    {s out : Str} (h : Deleted true re prev s out) :
    ∀ a k b, out = a ++ k ++ b → k ≠ [] → (∀ d ∈ k, isLineTerminator d = false) →
      (a = [] → atLineStart true prev = true ∨ atLineEnd true s = true) →
      (a ≠ [] → ∃ a0 c, a = a0 ++ [c] ∧ isLineTerminator c = true) →
      ∃ a' b', s = a' ++ k ++ b' ∧ atLineStart true (lastOf prev a') = true ∧
        matchAt true re (lastOf prev a') (k ++ b') = none ∧
        Deleted true re (lastOf prev (a' ++ k)) b' b := by
  induction h with
  | done prev =>
    intro a k b hout hk
    exfalso
    apply hk
    have := congrArg List.length hout
    simp at this
    exact List.length_eq_zero.1 (by omega)
  | keep prev c s out hnone hrest ih =>
    intro a k b hout hk hklt ha0 ha1
    cases a with
    | nil =>
      obtain ⟨e, k', hk'⟩ := List.exists_cons_of_ne_nil hk
      subst hk'
      simp only [List.nil_append, List.cons_append, List.cons.injEq] at hout
      obtain ⟨hce, hout'⟩ := hout
      subst hce hout'
      have hclt : isLineTerminator c = false := hklt c (List.mem_cons_self _ _)
      have hstart : atLineStart true prev = true := by
        rcases ha0 rfl with h1 | h1
        · exact h1
        · simp only [atLineEnd, Bool.true_and] at h1
          rw [hclt] at h1; cases h1
      obtain ⟨b', hs, hd⟩ := deleted_keep_block hre hclt
        (fun d hd => hklt d (List.mem_cons_of_mem _ hd)) hrest
      refine ⟨[], b', by rw [hs]; rfl, hstart, ?_, ?_⟩
      · rw [lastOf_nil, List.cons_append, ← hs]; exact hnone
      · rw [List.nil_append, lastOf_cons]; exact hd
    | cons c0 a0 =>
      simp only [List.cons_append, List.cons.injEq] at hout
      obtain ⟨hc0, hout'⟩ := hout
      subst hc0
      obtain ⟨a1, c1, ha1e, hc1⟩ := ha1 (by simp)
      obtain ⟨a', b', hs, hstart, hm, hd⟩ := ih a0 k b hout' hk hklt
        (by
          intro h0
          subst h0
          left
          have : a1 = [] ∧ c = c1 := by
            cases a1 with
            | nil => simpa using ha1e
            | cons d a1 =>
              have := congrArg List.length ha1e
              simp at this
          rw [this.2]
          simpa [atLineStart] using hc1)
        (by
          intro hne
          cases a1 with
          | nil =>
            have := congrArg List.length ha1e
            simp at this
            exact absurd this hne
          | cons d a1 =>
            simp only [List.cons_append, List.cons.injEq] at ha1e
            exact ⟨a1, c1, ha1e.2, hc1⟩)
      refine ⟨c :: a', b', by rw [hs]; rfl, ?_, ?_, ?_⟩
      · rw [lastOf_cons]; exact hstart
      · rw [lastOf_cons]; exact hm
      · rw [List.cons_append, lastOf_cons]; exact hd
  | drop prev x after out hden hx hrest ih =>
    intro a k b hout hk hklt ha0 ha1
    obtain ⟨_, _, hend⟩ := hre _ _ _ hden
    obtain ⟨a', b', hs, hstart, hm, hd⟩ := ih a k b hout hk hklt (fun _ => Or.inr hend) ha1
    refine ⟨x ++ a', b', by rw [hs]; simp only [List.append_assoc], ?_, ?_, ?_⟩
    · rw [lastOf_append]; exact hstart
    · rw [lastOf_append]; exact hm
    · rw [List.append_assoc, lastOf_append]; exact hd

/-- Deleting the matches of a line-anchored expression joins no text without
line terminators: such a text occurs in what is left only if it occurs in the
text before deletion. -/
theorem deleted_occurs_of_occurs {re : RE} (hre : LineAnchored re) {prev : Option Char}
    {s out : Str} (h : Deleted true re prev s out) (w : Str)
    (hw : ∀ d ∈ w, isLineTerminator d = false) (hin : w <:+: out) : w <:+: s := by
  induction h with
  | done prev => exact hin
  | keep prev c s out hnone hrest ih =>
    rcases List.infix_cons_iff.1 hin with hpre | hinf
    · cases w with
      | nil => exact List.nil_infix
      | cons e w' =>
        obtain ⟨b, hb⟩ := hpre
        simp only [List.cons_append, List.cons.injEq] at hb
        obtain ⟨hec, hout⟩ := hb
        subst hec hout
        obtain ⟨b', hs, _⟩ := deleted_keep_block hre (hw e (List.mem_cons_self _ _))
          (fun d hd => hw d (List.mem_cons_of_mem _ hd)) hrest
        exact ⟨[], b', by rw [hs]; rfl⟩
    · exact (ih hinf).trans (List.suffix_cons _ _).isInfix
  | drop prev x after out hden hx hrest ih =>
    exact (ih hin).trans (List.suffix_append _ _).isInfix

/-! ## The two line-anchored expressions of `cleanAIText` -/

theorem labelCore_ne_nil {k : Str} (h : LabelCore k) : k ≠ [] := by
  obtain ⟨v1, w, v2, hk, _, _, hw⟩ := h
  intro h0
  rw [h0] at hk
  have hw0 : w = [] := by
    have := congrArg List.length hk
    simp at this
    exact List.length_eq_zero.1 (by omega)
  subst hw0
  rcases hw with hw | hw | hw <;> exact absurd hw (by decide)

theorem labelCore_no_lineTerminator {k : Str} (h : LabelCore k) :
    ∀ d ∈ k, isLineTerminator d = false := by
  obtain ⟨v1, w, v2, hk, hv1, hv2, hw⟩ := h
  have hwns : ∀ c ∈ w, isWhiteSpace c = false := by
    rcases hw with hw | hw | hw
    · exact not_isWhiteSpace_of_map_canonicalize hw (by decide)
    · exact not_isWhiteSpace_of_map_canonicalize hw (by decide)
    · exact not_isWhiteSpace_of_map_canonicalize hw (by decide)
  intro d hd
  rw [hk] at hd
  rcases List.mem_append.1 hd with h1 | h1
  · rcases List.mem_append.1 h1 with h2 | h2
    · exact (hv1 d h2).2
    · exact isLineTerminator_of_not_isWhiteSpace (hwns d h2)
  · exact (hv2 d h1).2

/-- A label core between a line start and a line end is a match of the label
expression. -/
theorem den_reLabelLine_of_core {prev : Option Char} {k b : Str} (hk : LabelCore k)
    (hstart : atLineStart true prev = true) (hend : atLineEnd true b = true) :
    Den true reLabelLine prev k b := by
  obtain ⟨v1, w, v2, hkd, hv1, hv2, hw⟩ := hk
  rw [reLabelLine_eq, den_seq_iff]
  refine ⟨[], k, rfl, ⟨rfl, hstart⟩, ?_⟩
  rw [den_seq_iff]
  refine ⟨v1, w ++ v2, by rw [hkd, List.append_assoc], ?_, ?_⟩
  · rw [reSpaces, den_rep_iff]
    exact ⟨fun c hc => (hv1 c hc).1, Nat.zero_le _, fun h hh => by cases hh⟩
  rw [den_seq_iff]
  refine ⟨w, v2, rfl, ?_, ?_⟩
  · rw [den_alt_iff, den_alt_iff, den_lits_iff _ _ _ (by decide),
      den_lits_iff _ _ _ (by decide), den_lits_iff _ _ _ (by decide),
      forall₂_sameChar_true_iff, forall₂_sameChar_true_iff, forall₂_sameChar_true_iff]
    rcases hw with hw | hw | hw
    · exact Or.inl (hw.trans (by decide))
    · exact Or.inr (Or.inl (hw.trans (by decide)))
    · exact Or.inr (Or.inr (hw.trans (by decide)))
  rw [den_seq_iff]
  refine ⟨v2, [], by simp, ?_, ⟨rfl, hend⟩⟩
  rw [reSpaces, den_rep_iff]
  exact ⟨fun c hc => (hv2 c hc).1, Nat.zero_le _, fun h hh => by cases hh⟩

theorem lineAnchored_reLabelLine : LineAnchored reLabelLine := by
  intro prev x after h
  obtain ⟨hstart, hend, ws1, w, ws2, hx, _, _, hw⟩ := den_reLabelLine h
  refine ⟨?_, hstart, hend⟩
  intro h0
  rw [h0] at hx
  have hw0 : w = [] := by
    have := congrArg List.length hx
    simp at this
    exact List.length_eq_zero.1 (by omega)
  subst hw0
  rcases hw with hw | hw | hw <;> exact absurd hw (by decide)

/-- A match of the label expression lies on a label line. -/
theorem hasLabelLine_of_den {b x after : Str}
    (hden : Den true reLabelLine (lastOf none b) x after) : HasLabelLine (b ++ x ++ after) := by
  obtain ⟨hstart, hend, ws1, w, ws2, hxw, hws1, hws2, hw⟩ := den_reLabelLine hden
  obtain ⟨u1, v1, huv1, hv1, hu1⟩ := split_after_last_lineTerminator ws1
  obtain ⟨v2, u2, hvu2, hv2, hu2⟩ := split_before_first_lineTerminator ws2
  refine ⟨b ++ u1, v1 ++ w ++ v2, u2 ++ after, ?_, ?_, ?_, ?_⟩
  · rw [hxw, huv1, hvu2]; simp only [List.append_assoc]
  · exact ⟨v1, w, v2, rfl,
      fun c hc => ⟨hws1 c (by rw [huv1]; exact List.mem_append_right _ hc), hv1 c hc⟩,
      fun c hc => ⟨hws2 c (by rw [hvu2]; exact List.mem_append_left _ hc), hv2 c hc⟩, hw⟩
  · rcases hu1 with hu1 | ⟨u', c, hu1, hc⟩
    · subst hu1; rw [List.append_nil]; exact hstart
    · rw [hu1, ← List.append_assoc, lastOf_append_singleton]
      simpa [atLineStart] using hc
  · rcases hu2 with hu2 | ⟨c, u', hu2, hc⟩
    · subst hu2; rw [List.nil_append]; exact hend
    · rw [hu2]; simpa [atLineEnd] using hc

/-- What a match of `/^#{1,6}.*$/m` looks like. -/
theorem den_reHeading_full {prev : Option Char} {x after : Str}
    (h : Den true reHeading prev x after) :
    atLineStart true prev = true ∧ atLineEnd true after = true ∧ ∃ y, x = '#' :: y := by
  obtain ⟨hstart, y, hy⟩ := den_reHeading h
  refine ⟨hstart, ?_, y, hy⟩
  rw [reHeading_eq, den_seq_iff] at h
  obtain ⟨x0, x1, hx01, _, h⟩ := h
  rw [den_seq_iff] at h
  obtain ⟨hs, x2, hx2, _, h⟩ := h
  rw [den_seq_iff] at h
  obtain ⟨x3, x4, hx4, _, heol⟩ := h
  rw [den_eol_iff] at heol
  exact heol.2

theorem lineAnchored_reHeading : LineAnchored reHeading := by
  intro prev x after h
  obtain ⟨hstart, hend, y, hy⟩ := den_reHeading_full h
  exact ⟨by rw [hy]; simp, hstart, hend⟩

/-- At a `#` that starts a line the heading expression matches. -/
theorem matchAt_reHeading_ne_none {prev : Option Char} (s : Str)
    (hstart : atLineStart true prev = true) : matchAt true reHeading prev ('#' :: s) ≠ none := by
  intro h
  rw [matchAt_eq_none_iff] at h
  refine h ('#' :: s.takeWhile dot) (s.dropWhile dot) ?_ ?_
  · rw [List.cons_append, List.takeWhile_append_dropWhile]
  · rw [reHeading_eq, den_seq_iff]
    refine ⟨[], '#' :: s.takeWhile dot, rfl, ⟨rfl, hstart⟩, ?_⟩
    rw [den_seq_iff]
    refine ⟨['#'], s.takeWhile dot, rfl, ?_, ?_⟩
    · rw [den_rep_iff]
      refine ⟨?_, by simp, ?_⟩
      · intro c hc; rw [List.mem_singleton.1 hc]; rfl
      · intro h hh; cases hh; simp
    rw [den_seq_iff]
    refine ⟨s.takeWhile dot, [], by simp, ?_, ⟨rfl, ?_⟩⟩
    · rw [den_rep_iff]
      exact ⟨fun c hc => List.mem_takeWhile_imp hc, Nat.zero_le _, fun h hh => by cases hh⟩
    · cases hd : s.dropWhile dot with
      | nil => rfl
      | cons c r =>
        have := List.head?_dropWhile_not dot s
        rw [hd] at this
        simp only [List.head?_cons, Option.elim, dot, Bool.not_eq_true, Bool.not_eq_false'] at this
        simp only [List.nil_append, atLineEnd, Bool.true_and]
        simpa [dot] using this

/-- A match of the heading expression is on a line that begins with `#`. -/
theorem hasHashLine_of_den {b x after : Str}
    (hden : Den true reHeading (lastOf none b) x after) : HasHashLine (b ++ x ++ after) := by
  obtain ⟨hstart, y, hy⟩ := den_reHeading hden
  exact ⟨b, y ++ after, by rw [hy]; simp, hstart⟩

/-! ## What each step of `cleanAIText` leaves -/

theorem lastOf_no_lineTerminator_of_ne_nil {prev : Option Char} {k : Str} (hk : k ≠ [])
    (hklt : ∀ d ∈ k, isLineTerminator d = false) :
    ∃ e, lastOf prev k = some e ∧ isLineTerminator e = false := by
  obtain ⟨c, k', hk'⟩ := List.exists_cons_of_ne_nil hk
  subst hk'
  rw [lastOf_cons]
  exact lastOf_some_no_lineTerminator (hklt c (List.mem_cons_self _ _))
    (fun d hd => hklt d (List.mem_cons_of_mem _ hd))

/-- A label line in what a line-anchored deletion leaves was a label line of
the text before deletion, at a position where the deleted expression did not
match. -/
theorem hasLabelLine_of_deleted {re : RE} (hre : LineAnchored re) {s out : Str}
    (h : Deleted true re none s out) (hout : HasLabelLine out) :
    ∃ a k b, s = a ++ k ++ b ∧ LabelCore k ∧ atLineStart true (lastOf none a) = true ∧
      atLineEnd true b = true ∧ matchAt true re (lastOf none a) (k ++ b) = none := by
  obtain ⟨a, k, b, ho, hk, hstart, hend⟩ := hout
  have hk0 := labelCore_ne_nil hk
  have hklt := labelCore_no_lineTerminator hk
  obtain ⟨a', b', hs, hstart', hm, hd⟩ := deleted_block_at_lineStart hre h a k b ho hk0 hklt
    (fun _ => Or.inl rfl)
    (fun hne => by
      rcases atLineStart_true_lastOf hstart with h0 | h0
      · exact absurd h0 hne
      · exact h0)
  refine ⟨a', k, b', hs, hk, hstart', ?_, hm⟩
  rw [lastOf_append] at hd
  obtain ⟨e, he, helt⟩ := @lastOf_no_lineTerminator_of_ne_nil (lastOf none a') k hk0 hklt
  rw [he] at hd
  exact deleted_atLineEnd hre helt hd hend

/-- After `replace(/^\s*(html|css|javascript)\s*$/gim, "")` no label line is
left. -/
theorem removeAll_reLabelLine_not_hasLabelLine (s : Str) :
    ¬ HasLabelLine (removeAll true reLabelLine s) := by
  intro hout
  obtain ⟨a, k, b, _, hk, hstart, hend, hm⟩ := hasLabelLine_of_deleted lineAnchored_reLabelLine
    (removeAll_deleted true reLabelLine (fun _ _ _ h => (lineAnchored_reLabelLine _ _ _ h).1) s) hout
  rw [matchAt_eq_none_iff] at hm
  exact hm k b rfl (den_reLabelLine_of_core hk hstart hend)

/-- Deleting the heading lines makes no label line. -/
theorem removeAll_reHeading_not_hasLabelLine (s : Str) (hs : ¬ HasLabelLine s) :
    ¬ HasLabelLine (removeAll true reHeading s) := by
  intro hout
  obtain ⟨a, k, b, hsd, hk, hstart, hend, _⟩ := hasLabelLine_of_deleted lineAnchored_reHeading
    (removeAll_deleted true reHeading (fun _ _ _ h => (lineAnchored_reHeading _ _ _ h).1) s) hout
  exact hs ⟨a, k, b, hsd, hk, hstart, hend⟩

/-- After `replace(/^#{1,6}.*$/gm, "")` no line begins with `#`. -/
theorem removeAll_reHeading_not_hasHashLine (s : Str) :
    ¬ HasHashLine (removeAll true reHeading s) := by
  rintro ⟨a, b, ho, hstart⟩
  obtain ⟨a', b', _, hstart', hm, _⟩ := deleted_block_at_lineStart lineAnchored_reHeading
    (removeAll_deleted true reHeading (fun _ _ _ h => (lineAnchored_reHeading _ _ _ h).1) s)
    a ['#'] b (by rw [ho]; simp) (by simp)
    (by intro d hd; rw [List.mem_singleton.1 hd]; decide)
    (fun _ => Or.inl rfl)
    (fun hne => by
      rcases atLineStart_true_lastOf hstart with h0 | h0
      · exact absurd h0 hne
      · exact h0)
  exact matchAt_reHeading_ne_none b' hstart' hm

theorem den_reFence_iff (ml : Bool) (prev : Option Char) (x after : Str) :
    Den ml reFence prev x after ↔ x = "```".toList := by
  rw [reFence, den_lits_false_iff _ _ (by decide)]

theorem matchAt_reFence_ne_none (prev : Option Char) (s : Str) :
    matchAt false reFence prev ("```".toList ++ s) ≠ none := by
  intro h
  rw [matchAt_eq_none_iff] at h
  exact h "```".toList s rfl ((den_reFence_iff _ _ _ _).2 rfl)

/-- What is left by deleting fences begins with a backtick only if the text
before deletion does. -/
theorem deleted_reFence_head {prev : Option Char} {s out : Str}
    (h : Deleted false reFence prev s (Char.ofNat 96 :: out)) :
    ∃ s', s = Char.ofNat 96 :: s' := by
  generalize ho : Char.ofNat 96 :: out = o at h
  cases h with
  | done => cases ho
  | keep _ c s' out' _ _ =>
    simp only [List.cons.injEq] at ho
    exact ⟨s', by rw [ho.1]⟩
  | drop _ x after _ hden _ _ =>
    rw [den_reFence_iff] at hden
    exact ⟨[Char.ofNat 96, Char.ofNat 96] ++ after, by rw [hden]; rfl⟩

/-- After `replace(/```/g, "")` no three consecutive backticks are left. -/
theorem deleted_reFence_no_fence {prev : Option Char} {s out : Str}
    (h : Deleted false reFence prev s out) : ¬ "```".toList <:+: out := by
  induction h with
  | done prev =>
    intro hin
    have := hin.length_le
    simp at this
  | keep prev c s out hnone hrest ih =>
    intro hin
    rcases List.infix_cons_iff.1 hin with hpre | hinf
    · obtain ⟨o, ho⟩ := hpre
      rw [fence_toList] at ho
      simp only [List.cons_append, List.nil_append, List.cons.injEq] at ho
      obtain ⟨hc, hout⟩ := ho
      subst hc hout
      obtain ⟨s1, hs1⟩ := deleted_reFence_head hrest
      subst hs1
      have hs2 : ∃ s2, s1 = Char.ofNat 96 :: s2 := by
        generalize ho : Char.ofNat 96 :: Char.ofNat 96 :: o = o2 at hrest
        generalize hss : Char.ofNat 96 :: s1 = ss at hrest
        cases hrest with
        | done => cases ho
        | keep _ c' s' out' _ hrest' =>
          simp only [List.cons.injEq] at ho hss
          rw [← ho.2] at hrest'
          rw [hss.2]
          exact deleted_reFence_head hrest'
        | drop _ x after _ hden _ _ =>
          rw [den_reFence_iff, fence_toList] at hden
          rw [hden] at hss
          simp only [List.cons_append, List.nil_append, List.cons.injEq, true_and] at hss
          exact ⟨Char.ofNat 96 :: after, hss⟩
      obtain ⟨s2, hs2⟩ := hs2
      subst hs2
      exact matchAt_reFence_ne_none prev s2 hnone
    · exact ih hinf
  | drop prev x after out hden hx hrest ih => exact ih

theorem removeAll_reFence_no_fence (s : Str) : ¬ "```".toList <:+: removeAll false reFence s :=
  deleted_reFence_no_fence (removeAll_deleted false reFence
    (fun _ _ _ h => by rw [den_reFence_iff] at h; rw [h]; decide) s)

/-- Deleting the matches of a line-anchored expression makes no fence. -/
theorem removeAll_lineAnchored_no_fence {re : RE} (hre : LineAnchored re) (s : Str)
    (hs : ¬ "```".toList <:+: s) : ¬ "```".toList <:+: removeAll true re s := fun hin =>
  hs (deleted_occurs_of_occurs hre (removeAll_deleted true re (fun _ _ _ h => (hre _ _ _ h).1) s)
    "```".toList (by decide) hin)

/-! ## `cleanAIText` applied twice -/

theorem rdropWhile_append_rtakeWhile (p : Char → Bool) (l : Str) :
    l.rdropWhile p ++ l.rtakeWhile p = l := by
  rw [List.rdropWhile, List.rtakeWhile, ← List.reverse_append, List.takeWhile_append_dropWhile,
    List.reverse_reverse]

/-- A text is its trimmed form between two runs of white space. -/
theorem trim_decomp (s : Str) :
    ∃ p q, s = p ++ trim s ++ q ∧ (∀ c ∈ p, isWhiteSpace c = true) ∧
      (∀ c ∈ q, isWhiteSpace c = true) := by
  refine ⟨s.takeWhile isWhiteSpace, (s.dropWhile isWhiteSpace).rtakeWhile isWhiteSpace, ?_,
    fun c hc => List.mem_takeWhile_imp hc, fun c hc => List.mem_rtakeWhile_imp hc⟩
  unfold trim
  rw [List.append_assoc, rdropWhile_append_rtakeWhile, List.takeWhile_append_dropWhile]

theorem labelCore_pad_left {v k : Str} (hk : LabelCore k)
    (hv : ∀ c ∈ v, isWhiteSpace c = true ∧ isLineTerminator c = false) : LabelCore (v ++ k) := by
  obtain ⟨v1, w, v2, hkd, hv1, hv2, hw⟩ := hk
  refine ⟨v ++ v1, w, v2, by rw [hkd]; simp only [List.append_assoc], ?_, hv2, hw⟩
  intro c hc
  rcases List.mem_append.1 hc with h | h
  · exact hv c h
  · exact hv1 c h

theorem labelCore_pad_right {v k : Str} (hk : LabelCore k)
    (hv : ∀ c ∈ v, isWhiteSpace c = true ∧ isLineTerminator c = false) : LabelCore (k ++ v) := by
  obtain ⟨v1, w, v2, hkd, hv1, hv2, hw⟩ := hk
  refine ⟨v1, w, v2 ++ v, by rw [hkd]; simp only [List.append_assoc], hv1, ?_, hw⟩
  intro c hc
  rcases List.mem_append.1 hc with h | h
  · exact hv2 c h
  · exact hv c h

/-- A label line stays one when white space is put before the text. -/
theorem hasLabelLine_pad_left {p t : Str} (hp : ∀ c ∈ p, isWhiteSpace c = true)
    (h : HasLabelLine t) : HasLabelLine (p ++ t) := by
  obtain ⟨a, k, b, ht, hk, hstart, hend⟩ := h
  rcases atLineStart_true_lastOf hstart with ha | ⟨a0, c, ha, hc⟩
  · subst ha
    obtain ⟨u, v, huv, hv, hu⟩ := split_after_last_lineTerminator p
    refine ⟨u, v ++ k, b, by rw [ht, huv]; simp only [List.append_assoc, List.nil_append],
      labelCore_pad_left hk
        (fun c hc => ⟨hp c (by rw [huv]; exact List.mem_append_right _ hc), hv c hc⟩), ?_, hend⟩
    rcases hu with hu | ⟨u', c, hu, hc⟩
    · rw [hu]; rfl
    · rw [hu, lastOf_append_singleton]; simpa [atLineStart] using hc
  · refine ⟨p ++ a, k, b, by rw [ht]; simp only [List.append_assoc], hk, ?_, hend⟩
    rw [ha, ← List.append_assoc, lastOf_append_singleton]
    simpa [atLineStart] using hc

/-- A label line stays one when white space is put behind the text. -/
theorem hasLabelLine_pad_right {q t : Str} (hq : ∀ c ∈ q, isWhiteSpace c = true)
    (h : HasLabelLine t) : HasLabelLine (t ++ q) := by
  obtain ⟨a, k, b, ht, hk, hstart, hend⟩ := h
  rcases (atLineEnd_true_iff b).1 hend with hb | ⟨c, b', hb, hc⟩
  · subst hb
    obtain ⟨v, u, hvu, hv, hu⟩ := split_before_first_lineTerminator q
    refine ⟨a, k ++ v, u, by rw [ht, hvu]; simp only [List.append_assoc, List.append_nil],
      labelCore_pad_right hk
        (fun c hc => ⟨hq c (by rw [hvu]; exact List.mem_append_left _ hc), hv c hc⟩), hstart, ?_⟩
    rw [atLineEnd_true_iff]; exact hu
  · refine ⟨a, k, b ++ q, by rw [ht]; simp only [List.append_assoc], hk, hstart, ?_⟩
    rw [hb]; simpa [atLineEnd] using hc

theorem trim_not_hasLabelLine {s : Str} (hs : ¬ HasLabelLine s) : ¬ HasLabelLine (trim s) := by
  intro h
  obtain ⟨p, q, hpq, hp, hq⟩ := trim_decomp s
  apply hs
  rw [hpq, List.append_assoc]
  exact hasLabelLine_pad_left hp (hasLabelLine_pad_right hq h)

theorem trim_not_hasHashLine {s : Str} (hs : ¬ HasHashLine s)
    (hhead : (trim s).head? ≠ some '#') : ¬ HasHashLine (trim s) := by
  rintro ⟨a, b, hab, hstart⟩
  obtain ⟨p, q, hpq, hp, hq⟩ := trim_decomp s
  rcases atLineStart_true_lastOf hstart with ha | ⟨a0, c, ha, hc⟩
  · subst ha
    apply hhead
    rw [hab]; rfl
  · apply hs
    refine ⟨p ++ a, b ++ q, by rw [hpq, hab]; simp only [List.append_assoc, List.cons_append], ?_⟩
    rw [ha, ← List.append_assoc, lastOf_append_singleton]
    simpa [atLineStart] using hc

/-- A text without fence, label line and line beginning with `#`, and without
white space at its ends, is left unchanged by `cleanAIText`. -/
theorem cleanAIText_eq_self {r : Str} (hfence : ¬ "```".toList <:+: r)
    (hlabel : ¬ HasLabelLine r) (hhash : ¬ HasHashLine r) (htrim : trim r = r) :
    cleanAIText r = r := by
  unfold cleanAIText
  have e2 : removeAll true reLabelLine r = r := by
    apply removeAll_eq_self
    intro b s hbs
    rw [matchAt_eq_none_iff]
    intro x after hx hden
    apply hlabel
    rw [hbs, hx, ← List.append_assoc]
    exact hasLabelLine_of_den hden
  have e3 : removeAll true reHeading r = r := by
    apply removeAll_eq_self
    intro b s hbs
    rw [matchAt_eq_none_iff]
    intro x after hx hden
    apply hhash
    rw [hbs, hx, ← List.append_assoc]
    exact hasHashLine_of_den hden
  rw [removeAll_reFence_eq_self r hfence, e2, e3, htrim]

theorem cleanAIText_no_fence (t : Str) : ¬ "```".toList <:+: cleanAIText t := by
  intro h
  have h1 := removeAll_reFence_no_fence t
  have h2 := removeAll_lineAnchored_no_fence lineAnchored_reLabelLine _ h1
  have h3 := removeAll_lineAnchored_no_fence lineAnchored_reHeading _ h2
  exact h3 (h.trans (trim_within _))

theorem cleanAIText_not_hasLabelLine (t : Str) : ¬ HasLabelLine (cleanAIText t) :=
  trim_not_hasLabelLine
    (removeAll_reHeading_not_hasLabelLine _ (removeAll_reLabelLine_not_hasLabelLine _))

/-- C9 (amended): `cleanAIText` is idempotent on every text whose cleaned form
does not begin with `#`. -/
theorem cleanAIText_idempotent_of_no_leading_hash (t : Str)
    (h : (cleanAIText t).head? ≠ some '#') :
    cleanAIText (cleanAIText t) = cleanAIText t :=
  cleanAIText_eq_self (cleanAIText_no_fence t) (cleanAIText_not_hasLabelLine t)
    (trim_not_hasHashLine (removeAll_reHeading_not_hasHashLine _) h)
    (trim_trim _)

/-- C9 (amended), on a fenced completion with a label line and a heading
line. -/
theorem cleanAIText_idempotent_of_no_leading_hash_witness :
    cleanAIText "```html\n<p>hi</p>\n```\n# note\n css \n#x".toList = "<p>hi</p>".toList ∧
    cleanAIText (cleanAIText "```html\n<p>hi</p>\n```\n# note\n css \n#x".toList) =
      cleanAIText "```html\n<p>hi</p>\n```\n# note\n css \n#x".toList :=
  ⟨by decide!,
   cleanAIText_idempotent_of_no_leading_hash
     "```html\n<p>hi</p>\n```\n# note\n css \n#x".toList (by decide!)⟩

/-! ## Markers and fences do not leak -/

/-- C13: the text returned by `cleanAIText` contains no three consecutive
backticks, whether they stood together in the input or would only come
together by the removal of a fence, a label line or a heading line. -/
theorem cleanAIText_no_triple_backtick (t : Str) : ¬ "```".toList <:+: cleanAIText t :=
  cleanAIText_no_fence t

/-- Before its first occurrence a non-empty pattern does not occur. -/
theorem not_occurs_take_of_indexOf {pat s : Str} {k : Nat} (hpat : pat ≠ [])
    (h : indexOf pat s = some k) : ¬ pat <:+: s.take k := by
  rw [indexOf_eq_some_iff] at h
  obtain ⟨_, _, h3⟩ := h
  intro hin
  rw [infix_iff_exists_drop] at hin
  obtain ⟨j, _, hj⟩ := hin
  rw [List.drop_take, List.prefix_take_iff] at hj
  have hl : 0 < pat.length := List.length_pos.2 hpat
  exact h3 j (by omega) hj.1

/-- The piece of `s.split(sep)` at index 1 does not contain the separator. -/
theorem split_second_not_occurs {sep s piece : Str} (hsep : sep ≠ [])
    (h : (split s sep)[1]? = some piece) : ¬ sep <:+: piece := by
  cases hi : indexOf sep s with
  | none =>
    exfalso
    unfold split at h
    have : sep.isEmpty = false := by cases sep <;> simp_all
    rw [this] at h
    simp only [Bool.false_eq_true, if_false] at h
    cases hn : s.length with
    | zero => rw [hn] at h; simp [splitLoop] at h
    | succ n => rw [hn] at h; simp [splitLoop, hi] at h
  | some i =>
    rw [split_second hsep hi] at h
    cases hk : indexOf sep (s.drop (i + sep.length)) with
    | none =>
      rw [hk] at h
      simp only [Option.some.injEq] at h
      rw [← h, ← indexOf_eq_none_iff]
      exact hk
    | some k =>
      rw [hk] at h
      simp only [Option.some.injEq] at h
      rw [← h]
      exact not_occurs_take_of_indexOf hsep hk

/-- The piece of `s.split(sep)` at index 0 is a prefix of `s` that does not
contain the separator. -/
theorem split_head_not_occurs {sep s seg : Str} (hsep : sep ≠ [])
    (h : (split s sep)[0]? = some seg) : ¬ sep <:+: seg ∧ seg <+: s := by
  cases hi : indexOf sep s with
  | none =>
    rw [split_head_of_none hsep hi] at h
    simp only [Option.some.injEq] at h
    rw [← h, ← indexOf_eq_none_iff]
    exact ⟨hi, List.prefix_rfl⟩
  | some i =>
    rw [split_head_of_some hsep hi] at h
    simp only [Option.some.injEq] at h
    rw [← h]
    exact ⟨not_occurs_take_of_indexOf hsep hi, List.take_prefix _ _⟩

/-- C17: for non-empty markers `extractBetween` raises no exception and its
result contains neither marker and has no leading or trailing white space. -/
theorem extractBetween_no_marker_leak (text start end_ : Str) (hs : start ≠ [])
    (he : end_ ≠ []) :
    ∃ r, extractBetween text start end_ = some r ∧ ¬ start <:+: r ∧ ¬ end_ <:+: r ∧
      trim r = r := by
  unfold extractBetween
  split
  · refine ⟨[], rfl, ?_, ?_, rfl⟩
    · intro h; exact hs (List.eq_nil_of_infix_nil h)
    · intro h; exact he (List.eq_nil_of_infix_nil h)
  · rename_i hinc
    simp only [Bool.or_eq_true, Bool.not_eq_true', not_or, Bool.not_eq_false] at hinc
    obtain ⟨i, hi⟩ := Option.isSome_iff_exists.1 hinc.1
    obtain ⟨piece, hp⟩ : ∃ piece, (split text start)[1]? = some piece :=
      ⟨_, split_second hs hi⟩
    have hpn := split_second_not_occurs hs hp
    obtain ⟨seg, hsg⟩ : ∃ seg, (split piece end_)[0]? = some seg := by
      cases hj : indexOf end_ piece with
      | none => exact ⟨_, split_head_of_none he hj⟩
      | some j => exact ⟨_, split_head_of_some he hj⟩
    obtain ⟨hsn, hpre⟩ := split_head_not_occurs he hsg
    rw [hp]
    simp only [hsg]
    refine ⟨trim seg, rfl, ?_, ?_, trim_trim seg⟩
    · intro h
      exact hpn ((h.trans (trim_within seg)).trans hpre.isInfix)
    · intro h
      exact hsn (h.trans (trim_within seg))

/-- C17, on a text in which the start marker occurs twice. -/
theorem extractBetween_no_marker_leak_witness :
    ∃ r, extractBetween "---HTML--- a ---HTML--- b ---CSS--- c".toList "---HTML---".toList
        "---CSS---".toList = some r ∧
      ¬ "---HTML---".toList <:+: r ∧ ¬ "---CSS---".toList <:+: r ∧ trim r = r :=
  extractBetween_no_marker_leak _ _ _ (by decide) (by decide)

/-! ## `sanitizeJS` on a single pair of angle brackets -/

theorem append_cons_unique {c : Char} {a a' b b' : Str} (ha : c ∉ a) (ha' : c ∉ a')
    (h : a ++ c :: b = a' ++ c :: b') : a = a' ∧ b = b' := by
  induction a generalizing a' with
  | nil =>
    cases a' with
    | nil => simpa using h
    | cons d a' =>
      simp only [List.nil_append, List.cons_append, List.cons.injEq] at h
      exact absurd (List.mem_cons_self _ _) (h.1 ▸ ha')
  | cons e a ih =>
    cases a' with
    | nil =>
      simp only [List.nil_append, List.cons_append, List.cons.injEq] at h
      exact absurd (List.mem_cons_self _ _) (h.1 ▸ ha)
    | cons d a' =>
      simp only [List.cons_append, List.cons.injEq] at h
      obtain ⟨hed, hrest⟩ := h
      obtain ⟨h1, h2⟩ := ih (fun hm => ha (List.mem_cons_of_mem _ hm))
        (fun hm => ha' (List.mem_cons_of_mem _ hm)) hrest
      exact ⟨by rw [hed, h1], h2⟩

/-- In a text without `<` an expression all of whose matches are tags matches
nowhere, so deleting its matches changes nothing. -/
theorem removeAllFrom_eq_self_of_no_lt {re : RE}
    (hre : ∀ prev x after, Den false re prev x after → IsTag x) (n : Nat)
    (prev : Option Char) (s : Str) (hs : '<' ∉ s) : removeAllFrom false re n prev s = s :=
  removeAllFrom_eq_self false re n prev s (fun b t hbt =>
    matchAt_eq_none_of_not_hasTag hre (not_hasTag_of_no_lt hs) _ b t hbt)

/-- Deleting the matches of an expression all of whose matches are tags, in a
text whose only `<` is followed by a non-empty text without `>` and a `>`:
either nothing is deleted, or exactly that bracket pair with what is in it. -/
theorem removeAllFrom_single_pair {re : RE}
    (hre : ∀ prev x after, Den false re prev x after → IsTag x)
    (p q r : Str) (hp : '<' ∉ p) (hr : '<' ∉ r) (hq1 : '<' ∉ q) (hq2 : '>' ∉ q)
    (n : Nat) (prev : Option Char) (hn : (p ++ '<' :: (q ++ '>' :: r)).length ≤ n) :
    removeAllFrom false re n prev (p ++ '<' :: (q ++ '>' :: r)) =
      if (matchAt false re (lastOf prev p) ('<' :: (q ++ '>' :: r))).isNone
      then p ++ '<' :: (q ++ '>' :: r) else p ++ r := by
  induction p generalizing n prev with
  | nil =>
    obtain ⟨m, hm⟩ : ∃ m, n = m + 1 := ⟨n - 1, by simp at hn; omega⟩
    subst hm
    simp only [List.nil_append, lastOf_nil]
    have hrest : '<' ∉ q ++ '>' :: r := by
      intro hmem
      rcases List.mem_append.1 hmem with h | h
      · exact hq1 h
      · rcases List.mem_cons.1 h with h | h
        · exact absurd h (by decide)
        · exact hr h
    rw [removeAllFrom]
    cases hmatch : matchAt false re prev ('<' :: (q ++ '>' :: r)) with
    | none =>
      simp only [Option.isNone_none, if_true]
      rw [removeAllFrom_eq_self_of_no_lt hre m _ _ hrest]
    | some z =>
      obtain ⟨x, hx, _, hden⟩ := matchAt_eq_some hmatch
      obtain ⟨y, hy0, hygt, hxy⟩ := hre _ _ _ hden
      subst hxy
      simp only [List.cons_append, List.append_assoc, List.singleton_append,
        List.cons.injEq, true_and, List.nil_append] at hx
      obtain ⟨hqy, hrz⟩ := append_cons_unique hq2 hygt hx
      have hlt : z.rest.length < ('<' :: (q ++ '>' :: r)).length := by
        rw [← hrz]; simp; omega
      simp only [hlt, if_true, Option.isNone_some, Bool.false_eq_true, if_false]
      rw [← hrz]
      exact removeAllFrom_eq_self_of_no_lt hre m _ _ hr
  | cons c p ih =>
    obtain ⟨m, hm⟩ : ∃ m, n = m + 1 := ⟨n - 1, by simp at hn; omega⟩
    subst hm
    have hc : c ≠ '<' := fun h => hp (h ▸ List.mem_cons_self _ _)
    have hnone : matchAt false re prev (c :: (p ++ '<' :: (q ++ '>' :: r))) = none := by
      rw [matchAt_eq_none_iff]
      intro x after hx hden
      have hh := isTag_head (hre _ _ _ hden)
      obtain ⟨y, _, _, hxy⟩ := hre _ _ _ hden
      subst hxy
      simp only [List.cons_append, List.cons.injEq] at hx
      exact hc hx.1
    rw [List.cons_append, removeAllFrom, hnone]
    simp only
    rw [ih (fun hm => hp (List.mem_cons_of_mem _ hm)) m (some c)
      (by simp only [List.cons_append, List.length_cons] at hn; omega), lastOf_cons]
    split <;> rfl

theorem removeAll_single_pair {re : RE}
    (hre : ∀ prev x after, Den false re prev x after → IsTag x)
    (p q r : Str) (hp : '<' ∉ p) (hr : '<' ∉ r) (hq1 : '<' ∉ q) (hq2 : '>' ∉ q) :
    removeAll false re (p ++ '<' :: (q ++ '>' :: r)) = p ++ '<' :: (q ++ '>' :: r) ∨
    removeAll false re (p ++ '<' :: (q ++ '>' :: r)) = p ++ r := by
  unfold removeAll
  rw [removeAllFrom_single_pair hre p q r hp hr hq1 hq2 _ none (Nat.le_refl _)]
  split
  · exact Or.inl rfl
  · exact Or.inr rfl

theorem removeAll_reTag_single_pair (p q r : Str) (hp : '<' ∉ p) (hr : '<' ∉ r)
    (hq0 : q ≠ []) (hq1 : '<' ∉ q) (hq2 : '>' ∉ q) :
    removeAll false reTag (p ++ '<' :: (q ++ '>' :: r)) = p ++ r := by
  unfold removeAll
  rw [removeAllFrom_single_pair (fun _ _ _ h => (den_reTag_iff _ _ _ _).1 h) p q r hp hr hq1 hq2
    _ none (Nat.le_refl _)]
  obtain ⟨d, ds, hq⟩ := List.exists_cons_of_ne_nil hq0
  subst hq
  rw [if_neg]
  rw [Bool.not_eq_true, Option.isNone_eq_false_iff, Option.isSome_iff_ne_none]
  exact matchAt_reTag_ne_none _ d (ds ++ '>' :: r)
    (fun h => hq2 (h ▸ List.mem_cons_self _ _)) (by simp)

/-- C16: when `p` and `r` contain no `<` and `q` is non-empty and contains
neither `<` nor `>`, `sanitizeJS` deletes `<`, `q` and `>` from
`p ++ "<" ++ q ++ ">" ++ r`, whether or not `<q>` is a markup tag, and trims
the rest. -/
theorem sanitizeJS_single_bracket_pair (p q r : Str) (hp : '<' ∉ p) (hr : '<' ∉ r)
    (hq0 : q ≠ []) (hq1 : '<' ∉ q) (hq2 : '>' ∉ q) :
    sanitizeJS (p ++ "<".toList ++ q ++ ">".toList ++ r) = trim (p ++ r) := by
  have ht : p ++ "<".toList ++ q ++ ">".toList ++ r = p ++ '<' :: (q ++ '>' :: r) := by
    simp [List.append_assoc]
  have hpr : '<' ∉ p ++ r := by
    intro h
    rcases List.mem_append.1 h with h | h
    · exact hp h
    · exact hr h
  have hself : ∀ {re : RE}, (∀ prev x after, Den false re prev x after → IsTag x) →
      removeAll false re (p ++ r) = p ++ r :=
    fun hre => removeAllFrom_eq_self_of_no_lt hre _ none _ hpr
  have h3 : ∀ s, (s = p ++ '<' :: (q ++ '>' :: r) ∨ s = p ++ r) →
      removeAll false reTag s = p ++ r := by
    intro s hs
    rcases hs with hs | hs
    · rw [hs]; exact removeAll_reTag_single_pair p q r hp hr hq0 hq1 hq2
    · rw [hs]; exact hself (fun _ _ _ h => (den_reTag_iff _ _ _ _).1 h)
  have hstep : ∀ {re : RE}, (∀ prev x after, Den false re prev x after → IsTag x) →
      ∀ s, (s = p ++ '<' :: (q ++ '>' :: r) ∨ s = p ++ r) →
      (removeAll false re s = p ++ '<' :: (q ++ '>' :: r) ∨ removeAll false re s = p ++ r) := by
    intro re hre s hs
    rcases hs with hs | hs
    · rw [hs]; exact removeAll_single_pair hre p q r hp hr hq1 hq2
    · rw [hs]; exact Or.inr (hself hre)
  unfold sanitizeJS
  rw [ht, h3 _ (hstep (fun _ _ _ h => den_reScriptClose_isTag h) _
    (hstep (fun _ _ _ h => den_reScriptOpen_isTag h) _ (Or.inl rfl)))]

/-- C16, on a comparison in JavaScript code: the text between `<` and the
next `>` is lost. -/
theorem sanitizeJS_single_bracket_pair_witness :
    sanitizeJS "if (a < b && c > d) run();".toList = "if (a  d) run();".toList :=
  sanitizeJS_single_bracket_pair "if (a ".toList " b && c ".toList " d) run();".toList
    (by decide) (by decide) (by decide) (by decide) (by decide)

/-! ## `sanitizeCSS` applied twice -/

theorem css_toList : "css".toList = ['c', 's', 's'] := rfl

/-- On a text without leading white space that does not begin with `css`, the
expression `/^\s*css\s*/i` matches nowhere. -/
theorem removeFirst_reCssLabel_eq_self (r : Str)
    (hhead : ∀ c, r.head? = some c → isWhiteSpace c = false)
    (h1 : startsWithIgnoreCase "css".toList r = false) :
    removeFirst false reCssLabel r = r := by
  apply removeFirstFrom_eq_self
  intro b t hbt
  rw [matchAt_eq_none_iff]
  intro x after hx hden
  have hre : reCssLabel = .seq .bol (.seq reSpaces (.seq (lits true "css".toList) reSpaces)) :=
    rfl
  rw [hre, den_seq_iff] at hden
  obtain ⟨x0, x1, hx01, hbol, hden⟩ := hden
  rw [den_bol_iff, atLineStart_false_iff] at hbol
  obtain ⟨hx0, hprev⟩ := hbol
  have hb : b = [] := lastOf_none_eq_none hprev
  subst hx0 hb
  rw [den_seq_iff] at hden
  obtain ⟨ws1, x2, hx2, hws1, hden⟩ := hden
  rw [reSpaces, den_rep_iff] at hws1
  rw [den_seq_iff] at hden
  obtain ⟨w, ws2, hx3, hw, _⟩ := hden
  have hws1nil : ws1 = [] := by
    cases ws1 with
    | nil => rfl
    | cons c ws1 =>
      have hc := hws1.1 c (List.mem_cons_self _ _)
      have := hhead c (by rw [hbt, hx, hx01, hx2]; rfl)
      rw [hc] at this; cases this
  subst hws1nil
  have hr : r = w ++ (ws2 ++ after) := by
    rw [hbt, hx, hx01, hx2, hx3]; simp
  rw [den_lits_iff _ _ _ (by decide), forall₂_sameChar_true_iff] at hw
  have hl : w.length = "css".toList.length := by
    have := congrArg List.length hw
    simpa using this
  have : startsWithIgnoreCase "css".toList r = true := by
    unfold startsWithIgnoreCase
    rw [hr, ← hl, List.take_left, hw]
    simp
  rw [h1] at this; cases this

/-- A style text without white space at its ends that does not begin with
`css`, `html` or `javascript` is left unchanged by `sanitizeCSS`. -/
theorem sanitizeCSS_eq_self {r : Str} (htrim : trim r = r)
    (h1 : startsWithIgnoreCase "css".toList r = false)
    (h2 : startsWithIgnoreCase "html".toList r = false)
    (h3 : startsWithIgnoreCase "javascript".toList r = false) : sanitizeCSS r = r := by
  have hhead : ∀ c, r.head? = some c → isWhiteSpace c = false :=
    fun c hc => trim_head r c (by rw [htrim]; exact hc)
  unfold sanitizeCSS
  rw [removeFirst_reCssLabel_eq_self r hhead h1, removeAll_reStrayLabel r hhead h2 h3, htrim]

/-- C11, as stated, fails: only the first `css` label is stripped in one
application, so a repeated label line survives the first application and is
stripped by the second. -/
theorem sanitizeCSS_not_idempotent_counterexample :
    sanitizeCSS "css\ncss\nbody\x7b\x7d".toList = "css\nbody\x7b\x7d".toList ∧
    sanitizeCSS (sanitizeCSS "css\ncss\nbody\x7b\x7d".toList) = "body\x7b\x7d".toList ∧
    sanitizeCSS (sanitizeCSS "css\ncss\nbody\x7b\x7d".toList) ≠
      sanitizeCSS "css\ncss\nbody\x7b\x7d".toList := by
  decide

/-- C11 (amended): `sanitizeCSS` is idempotent on every text whose sanitized
form has none of `css`, `html` and `javascript` as a prefix (in any letter
case). -/
theorem sanitizeCSS_idempotent_of_no_leading_label (t : Str)
    (h1 : startsWithIgnoreCase "css".toList (sanitizeCSS t) = false)
    (h2 : startsWithIgnoreCase "html".toList (sanitizeCSS t) = false)
    (h3 : startsWithIgnoreCase "javascript".toList (sanitizeCSS t) = false) :
    sanitizeCSS (sanitizeCSS t) = sanitizeCSS t :=
  sanitizeCSS_eq_self (by unfold sanitizeCSS; exact trim_trim _) h1 h2 h3

/-- C11 (amended), on a style segment with a label line and a stray label. -/
theorem sanitizeCSS_idempotent_of_no_leading_label_witness :
    sanitizeCSS "css\nhtml body \x7b margin: 0 \x7d ".toList = "body \x7b margin: 0 \x7d".toList ∧
    sanitizeCSS (sanitizeCSS "css\nhtml body \x7b margin: 0 \x7d ".toList) =
      sanitizeCSS "css\nhtml body \x7b margin: 0 \x7d ".toList :=
  ⟨by decide,
   sanitizeCSS_idempotent_of_no_leading_label "css\nhtml body \x7b margin: 0 \x7d ".toList
     (by decide) (by decide) (by decide)⟩

/-! ## Heading lines in the result of `cleanAIText` -/

/-- The first line of a text is a prefix of it, and every later line stands
right behind a line terminator. -/
theorem lines_structure (t : Str) :
    (∀ l ls, lines t = l :: ls → ∃ b, t = l ++ b) ∧
    (∀ l ∈ (lines t).tail, ∃ a c b, t = a ++ c :: (l ++ b) ∧ isLineTerminator c = true) := by
  induction t with
  | nil =>
    constructor
    · intro l ls h
      simp only [lines, List.cons.injEq] at h
      exact ⟨[], by rw [← h.1]; rfl⟩
    · intro l hl
      simp [lines] at hl
  | cons d t ih =>
    obtain ⟨ih1, ih2⟩ := ih
    obtain ⟨l0, ls0, hl0⟩ := List.exists_cons_of_ne_nil (lines_ne_nil t)
    obtain ⟨b0, hb0⟩ := ih1 l0 ls0 hl0
    rw [lines_cons]
    by_cases hd : isLineTerminator d = true
    · rw [if_pos hd]
      constructor
      · intro l ls h
        simp only [List.cons.injEq] at h
        exact ⟨d :: t, by rw [← h.1]; rfl⟩
      · intro l hl
        simp only [List.tail_cons] at hl
        rw [hl0] at hl
        rcases List.mem_cons.1 hl with h | h
        · exact ⟨[], d, b0, by rw [h, ← hb0]; rfl, hd⟩
        · obtain ⟨a, c, b, hab, hc⟩ := ih2 l (by rw [hl0]; exact h)
          exact ⟨d :: a, c, b, by rw [hab]; rfl, hc⟩
    · rw [if_neg hd, hl0]
      constructor
      · intro l ls h
        simp only [List.cons.injEq] at h
        exact ⟨b0, by rw [← h.1, hb0]; rfl⟩
      · intro l hl
        simp only [List.tail_cons] at hl
        obtain ⟨a, c, b, hab, hc⟩ := ih2 l (by rw [hl0]; exact hl)
        exact ⟨d :: a, c, b, by rw [hab]; rfl, hc⟩

/-- A `#` right behind a line terminator in the trimmed text begins a line of
the text. -/
theorem hasHashLine_of_trim {s a b : Str} {c : Char} (h : trim s = a ++ c :: '#' :: b)
    (hc : isLineTerminator c = true) : HasHashLine s := by
  obtain ⟨p, q, hpq, _, _⟩ := trim_decomp s
  refine ⟨p ++ (a ++ [c]), b ++ q, by rw [hpq, h]; simp [List.append_assoc], ?_⟩
  rw [← List.append_assoc, lastOf_append_singleton]
  simpa [atLineStart] using hc

/-- C12, as stated, fails: a `#` behind leading white space does not start a
line when the heading lines are removed, and starts the first line of the
result once `trim` has run. -/
theorem cleanAIText_leading_hash_counterexample :
    cleanAIText " #a".toList = "#a".toList ∧
    "#a".toList ∈ lines (cleanAIText " #a".toList) ∧
    ("#a".toList).head? = some '#' := by
  decide

/-- C12 (amended): in the text returned by `cleanAIText` no line other than
the first begins with `#`. -/
theorem cleanAIText_no_heading_after_first_line (t : Str) :
    ∀ l ∈ (lines (cleanAIText t)).tail, l.head? ≠ some '#' := by
  intro l hl hhead
  obtain ⟨a, c, b, hab, hc⟩ := (lines_structure (cleanAIText t)).2 l hl
  cases l with
  | nil => cases hhead
  | cons e l' =>
    have he : e = '#' := by simpa using hhead
    subst he
    unfold cleanAIText at hab
    exact removeAll_reHeading_not_hasHashLine _
      (@hasHashLine_of_trim _ a (l' ++ b) c (by rw [hab]; rfl) hc)

/-- C12 (amended), on a text with two heading lines: both are emptied, and the
last line of the result does not begin with `#`. -/
theorem cleanAIText_no_heading_after_first_line_witness :
    lines (cleanAIText "# t\na\n## b\nc".toList) = ["a".toList, [], "c".toList] ∧
    ("c".toList).head? ≠ some '#' :=
  ⟨by decide,
   cleanAIText_no_heading_after_first_line "# t\na\n## b\nc".toList "c".toList (by decide)⟩

/-- The text returned by `cleanAIText` has a line that begins with `#` only if
it begins with `#` itself. -/
theorem cleanAIText_no_heading_of_no_leading_hash (t : Str)
    (h : (cleanAIText t).head? ≠ some '#') :
    ∀ l ∈ lines (cleanAIText t), l.head? ≠ some '#' := by
  intro l hl
  obtain ⟨l0, ls0, hl0⟩ := List.exists_cons_of_ne_nil (lines_ne_nil (cleanAIText t))
  rw [hl0] at hl
  rcases List.mem_cons.1 hl with h0 | h0
  · obtain ⟨b, hb⟩ := (lines_structure (cleanAIText t)).1 l0 ls0 hl0
    subst h0
    intro hh
    apply h
    cases l with
    | nil => cases hh
    | cons e l' => rw [hb]; exact hh
  · have hl' : l ∈ (lines (cleanAIText t)).tail := by rw [hl0]; exact h0
    intro hhead
    obtain ⟨a, c, b, hab, hc⟩ := (lines_structure (cleanAIText t)).2 l hl'
    cases l with
    | nil => cases hhead
    | cons e l' =>
      have he : e = '#' := by simpa using hhead
      subst he
      unfold cleanAIText at hab
      exact removeAll_reHeading_not_hasHashLine _
        (@hasHashLine_of_trim _ a (l' ++ b) c (by rw [hab]; rfl) hc)

/-! ## `cleanAIText` on a line that begins with `#` -/

/-- Where the expression can match nowhere, what is left is the whole text. -/
theorem deleted_eq_self {ml : Bool} {re : RE} {prev : Option Char} {s out : Str}
    (h : Deleted ml re prev s out)
    (hno : ∀ b t, s = b ++ t → matchAt ml re (lastOf prev b) t = none) : out = s := by
  induction h with
  | done prev => rfl
  | keep prev c s out hnone hrest ih =>
    rw [ih (fun b t hbt => by
      have := hno (c :: b) t (by rw [hbt]; rfl)
      rwa [lastOf_cons] at this)]
  | drop prev x after out hden hx hrest ih =>
    exfalso
    have := hno [] (x ++ after) rfl
    rw [lastOf_nil, matchAt_eq_none_iff] at this
    exact this x after rfl hden

/-- Deleting fences does not reach across a code unit that is no backtick:
what is left of `a ++ c :: b` is what is left of `a`, then `c`, then what is
left of `b`. -/
theorem deleted_reFence_split (n : Nat) :
    ∀ (a : Str) (c : Char) (b out : Str) (prev : Option Char), a.length ≤ n →
      c ≠ Char.ofNat 96 → Deleted false reFence prev (a ++ c :: b) out →
      ∃ a' b', out = a' ++ c :: b' ∧ a'.Sublist a ∧ Deleted false reFence (some c) b b' := by
  induction n with
  | zero =>
    intro a c b out prev ha hc h
    have ha0 : a = [] := List.length_eq_zero.1 (by omega)
    subst ha0
    generalize hs : [] ++ c :: b = s at h
    cases h with
    | done => cases hs
    | keep _ c0 s0 out0 _ hrest =>
      simp only [List.nil_append, List.cons.injEq] at hs
      obtain ⟨h1, h2⟩ := hs
      subst h1 h2
      exact ⟨[], out0, rfl, List.Sublist.refl _, hrest⟩
    | drop _ x after _ hden _ _ =>
      rw [den_reFence_iff, fence_toList] at hden
      rw [hden] at hs
      simp only [List.nil_append, List.cons_append, List.cons.injEq] at hs
      exact absurd hs.1 hc
  | succ n ih =>
    intro a c b out prev ha hc h
    cases a with
    | nil => exact ih [] c b out prev (by simp) hc h
    | cons e a1 =>
      generalize hs : (e :: a1) ++ c :: b = s at h
      cases h with
      | done => cases hs
      | keep _ c0 s0 out0 _ hrest =>
        simp only [List.cons_append, List.cons.injEq] at hs
        obtain ⟨h1, h2⟩ := hs
        subst h1 h2
        obtain ⟨a', b', ho, hsub, hd⟩ := ih a1 c b out0 _
          (by simp only [List.length_cons] at ha; omega) hc hrest
        exact ⟨e :: a', b', by rw [ho]; rfl, hsub.cons₂ e, hd⟩
      | drop _ x after _ hden _ hrest =>
        rw [den_reFence_iff, fence_toList] at hden
        subst hden
        simp only [List.cons_append, List.nil_append, List.cons.injEq] at hs
        obtain ⟨he, hs⟩ := hs
        cases a1 with
        | nil =>
          simp only [List.nil_append, List.cons.injEq] at hs
          exact absurd hs.1 hc
        | cons e2 a2 =>
          simp only [List.cons_append, List.cons.injEq] at hs
          obtain ⟨_, hs⟩ := hs
          cases a2 with
          | nil =>
            simp only [List.nil_append, List.cons.injEq] at hs
            exact absurd hs.1 hc
          | cons e3 a3 =>
            simp only [List.cons_append, List.cons.injEq] at hs
            obtain ⟨_, hs⟩ := hs
            rw [← hs] at hrest
            obtain ⟨a', b', ho, hsub, hd⟩ := ih a3 c b out _
              (by simp only [List.length_cons] at ha; omega) hc hrest
            exact ⟨a', b', ho,
              hsub.trans ((List.sublist_cons_self _ _).trans
                ((List.sublist_cons_self _ _).trans (List.sublist_cons_self _ _))), hd⟩

/-- Deleting the fences of a line `#l` followed by a text without fences
changes the line only. -/
theorem removeAll_reFence_hash_line (l r : Str) (hl : ∀ c ∈ l, isLineTerminator c = false)
    (hfence : ¬ "```".toList <:+: r) :
    ∃ l1, (∀ c ∈ l1, isLineTerminator c = false) ∧
      removeAll false reFence ('#' :: (l ++ '\n' :: r)) = '#' :: (l1 ++ '\n' :: r) := by
  have hd := removeAll_deleted false reFence
    (fun _ _ _ h => by rw [den_reFence_iff] at h; rw [h]; decide) ('#' :: (l ++ '\n' :: r))
  obtain ⟨a1, b1, ho1, hsub1, hd1⟩ := deleted_reFence_split 0 [] '#' (l ++ '\n' :: r) _ none
    (by simp) (by decide) hd
  have ha1 : a1 = [] := List.eq_nil_of_sublist_nil hsub1
  subst ha1
  obtain ⟨l1, b2, ho2, hsub2, hd2⟩ := deleted_reFence_split l.length l '\n' r b1 _
    (Nat.le_refl _) (by decide) hd1
  have hb2 : b2 = r := by
    apply deleted_eq_self hd2
    intro b t hbt
    rw [matchAt_eq_none_iff]
    intro x after hx hden
    rw [den_reFence_iff] at hden
    exact hfence ⟨b, after, by rw [hbt, hx, hden, List.append_assoc]⟩
  refine ⟨l1, fun c hc => hl c (hsub2.subset hc), ?_⟩
  rw [ho1, ho2, hb2]
  rfl

theorem rdropWhile_cons_of_neg {p : Char → Bool} {a : Char} (ha : p a = false) (l : Str) :
    (a :: l).rdropWhile p = a :: l.rdropWhile p := by
  induction l using List.reverseRecOn with
  | nil =>
    have := List.rdropWhile_concat_neg p [] a (by simp [ha])
    simpa using this
  | append_singleton l x ih =>
    by_cases hx : p x = true
    · rw [← List.cons_append, List.rdropWhile_concat_pos _ _ _ hx,
        List.rdropWhile_concat_pos _ _ _ hx, ih]
    · rw [← List.cons_append, List.rdropWhile_concat_neg _ _ _ hx,
        List.rdropWhile_concat_neg _ _ _ hx]
      rfl

/-- A line that begins with `#` is no label line. -/
theorem isLabel_hash (l : Str) : isLabel ('#' :: l) = false := by
  have hws : isWhiteSpace '#' = false := by decide
  have ht : trim ('#' :: l) = '#' :: l.rdropWhile isWhiteSpace := by
    unfold trim
    rw [dropWhile_eq_self_of_head hws, rdropWhile_cons_of_neg hws]
  unfold isLabel
  rw [ht]
  have hc : canonicalize '#' = '#' := by decide
  have e1 : "HTML".toList = ['H', 'T', 'M', 'L'] := rfl
  have e2 : "CSS".toList = ['C', 'S', 'S'] := rfl
  have e3 : "JAVASCRIPT".toList = ['J', 'A', 'V', 'A', 'S', 'C', 'R', 'I', 'P', 'T'] := rfl
  simp [List.map_cons, hc, e1, e2, e3]

/-- A line that begins with `#` in a text is one of its lines. -/
theorem hasHashLine_lines {t : Str} (h : HasHashLine t) :
    ∃ l ∈ lines t, l.head? = some '#' := by
  obtain ⟨a, b, hab, hstart⟩ := h
  obtain ⟨v, u, hvu, hv, hu⟩ := split_before_first_lineTerminator b
  refine ⟨'#' :: v, ?_, rfl⟩
  apply @mem_lines_of_decomp t a ('#' :: v) u
  · rw [hab, hvu]; simp
  · intro c hc
    rcases List.mem_cons.1 hc with h1 | h1
    · rw [h1]; decide
    · exact hv c h1
  · exact atLineStart_true_lastOf hstart
  · exact hu

theorem den_reHeading_no_lineTerminator {prev : Option Char} {x after : Str}
    (h : Den true reHeading prev x after) : ∀ c ∈ x, isLineTerminator c = false := by
  rw [reHeading_eq, den_seq_iff] at h
  obtain ⟨x0, x1, hx01, hbol, h⟩ := h
  rw [den_bol_iff] at hbol
  rw [den_seq_iff] at h
  obtain ⟨hs, x2, hx2, hhash, h⟩ := h
  rw [den_rep_iff] at hhash
  rw [den_seq_iff] at h
  obtain ⟨x3, x4, hx4, hdot, heol⟩ := h
  rw [den_rep_iff] at hdot
  rw [den_eol_iff] at heol
  intro c hc
  rw [hx01, hbol.1, List.nil_append, hx2, hx4, heol.1, List.append_nil] at hc
  rcases List.mem_append.1 hc with h1 | h1
  · have := hhash.1 c h1
    simp only [beq_iff_eq] at this
    rw [this]; decide
  · have := hdot.1 c h1
    simpa [dot] using this

theorem split_at_lineTerminator_unique {a b x y : Str} {c : Char}
    (ha : ∀ d ∈ a, isLineTerminator d = false) (hc : isLineTerminator c = true)
    (hx : ∀ d ∈ x, isLineTerminator d = false) (hy : atLineEnd true y = true)
    (h : a ++ c :: b = x ++ y) : x = a ∧ y = c :: b := by
  induction a generalizing x with
  | nil =>
    cases x with
    | nil => exact ⟨rfl, by simpa using h.symm⟩
    | cons d x =>
      simp only [List.nil_append, List.cons_append, List.cons.injEq] at h
      have := hx d (List.mem_cons_self _ _)
      rw [← h.1, hc] at this; cases this
  | cons e a ih =>
    cases x with
    | nil =>
      simp only [List.nil_append, List.cons_append] at h
      rw [← h] at hy
      simp only [atLineEnd, Bool.true_and] at hy
      rw [ha e (List.mem_cons_self _ _)] at hy; cases hy
    | cons d x =>
      simp only [List.cons_append, List.cons.injEq] at h
      obtain ⟨h1, h2⟩ := ih (fun d hd => ha d (List.mem_cons_of_mem _ hd))
        (fun d hd => hx d (List.mem_cons_of_mem _ hd)) h.2
      exact ⟨by rw [h.1, h1], h2⟩

theorem lastOf_of_ne_nil (p q : Option Char) {b : Str} (hb : b ≠ []) :
    lastOf p b = lastOf q b := by
  obtain ⟨c, b', hb'⟩ := List.exists_cons_of_ne_nil hb
  subst hb'
  rfl

/-- Deleting the heading lines of a line `#l` followed by a text none of whose
lines begins with `#` deletes that line and nothing else. -/
theorem removeAll_reHeading_hash_line (l r : Str) (hl : ∀ c ∈ l, isLineTerminator c = false)
    (hhash : ∀ x ∈ lines r, x.head? ≠ some '#') :
    removeAll true reHeading ('#' :: (l ++ '\n' :: r)) = '\n' :: r := by
  unfold removeAll
  rw [List.length_cons, removeAllFrom]
  cases hm : matchAt true reHeading none ('#' :: (l ++ '\n' :: r)) with
  | none => exact absurd hm (matchAt_reHeading_ne_none _ rfl)
  | some z =>
    obtain ⟨x, hx, hp, hden⟩ := matchAt_eq_some hm
    obtain ⟨_, hend, y, hy⟩ := den_reHeading_full hden
    have hxlt := den_reHeading_no_lineTerminator hden
    obtain ⟨hxe, hze⟩ := @split_at_lineTerminator_unique ('#' :: l) r x z.rest '\n'
      (by
        intro d hd
        rcases List.mem_cons.1 hd with h1 | h1
        · rw [h1]; decide
        · exact hl d h1)
      (by decide) hxlt hend (by rw [← hx]; rfl)
    have hlt : z.rest.length < ('#' :: (l ++ '\n' :: r)).length := by
      rw [hze]; simp; omega
    simp only [hlt, if_true]
    rw [hze]
    apply removeAllFrom_eq_self
    intro b t hbt
    rw [matchAt_eq_none_iff]
    intro x' after hx' hden'
    obtain ⟨hstart', y', hy'⟩ := den_reHeading hden'
    cases b with
    | nil =>
      rw [List.nil_append] at hbt
      rw [← hbt, hy'] at hx'
      simp at hx'
    | cons e b' =>
      have hh : HasHashLine ('\n' :: r) := by
        refine ⟨e :: b', y' ++ after, by rw [hbt, hx', hy']; simp, ?_⟩
        rw [lastOf_of_ne_nil none z.prev (by simp)]
        exact hstart'
      obtain ⟨l0, hl0, hh0⟩ := hasHashLine_lines hh
      have hlines : lines ('\n' :: r) = [] :: lines r := by
        rw [lines_cons, if_pos (by decide)]
      rw [hlines] at hl0
      rcases List.mem_cons.1 hl0 with h1 | h1
      · rw [h1] at hh0; cases hh0
      · exact hhash l0 h1 hh0

theorem trim_cons_of_isWhiteSpace {c : Char} (hc : isWhiteSpace c = true) (r : Str) :
    trim (c :: r) = trim r := by
  unfold trim
  rw [List.dropWhile_cons_of_pos hc]

/-- C15: `cleanAIText` deletes a first line that begins with `#`, whatever
follows the `#` on that line.  Here `l` holds no line terminator, and `r` has
no white space at its ends, no three consecutive backticks, no line beginning
with `#` and no label line (a line consisting solely of `html`, `css` or
`javascript` in the sense of the label expression: any letter case, white space
around the word allowed). -/
theorem cleanAIText_hash_line (l r : Str) (hl : ∀ c ∈ l, isLineTerminator c = false)
    (hne : r ≠ []) (htrim : trim r = r) (hfence : ¬ "```".toList <:+: r)
    (hhash : ∀ x ∈ lines r, x.head? ≠ some '#')
    (hlabel : ∀ x ∈ lines r, isLabel x = false) :
    cleanAIText ("#".toList ++ l ++ "\n".toList ++ r) = r := by
  have _ := hne
  have ht : "#".toList ++ l ++ "\n".toList ++ r = '#' :: (l ++ '\n' :: r) := by
    simp [List.append_assoc]
  obtain ⟨l1, hl1, h1⟩ := removeAll_reFence_hash_line l r hl hfence
  have hlines : lines ('#' :: (l1 ++ '\n' :: r)) = ('#' :: l1) :: lines r := by
    rw [← List.cons_append, lines_append_lineTerminator _ _ _ (by decide),
      lines_of_no_lineTerminator]
    · rfl
    · intro c hc
      rcases List.mem_cons.1 hc with h | h
      · rw [h]; decide
      · exact hl1 c h
  have h2 : removeAll true reLabelLine ('#' :: (l1 ++ '\n' :: r)) = '#' :: (l1 ++ '\n' :: r) := by
    apply removeAll_reLabelLine_eq_self
    intro x hx
    rw [hlines] at hx
    rcases List.mem_cons.1 hx with h | h
    · rw [h]; exact isLabel_hash l1
    · exact hlabel x h
  unfold cleanAIText
  rw [ht, h1, h2, removeAll_reHeading_hash_line l1 r hl1 hhash,
    trim_cons_of_isWhiteSpace (by decide), htrim]

/-- C15, on a CSS rule whose selector line is `#app {`: the selector line is
lost. -/
theorem cleanAIText_hash_line_witness :
    cleanAIText "#app \x7b\ncolor: red;\n\x7d".toList = "color: red;\n\x7d".toList :=
  cleanAIText_hash_line "app \x7b".toList "color: red;\n\x7d".toList (by decide) (by decide)
    (by decide) (by decide) (by decide) (by decide)

/-! ## The guards of the click handler -/

/-- C14: when the trimmed description is empty the outcome is `missingInput`
and no request is issued; when it is not empty and the credential is empty the
outcome is `missingCredential` and no request is issued (the display is
unchanged in both cases); hence a request is issued only if the trimmed
description and the credential are both non-empty. -/
theorem onGenerateClick_guards (st : Display) (description apiKey : Str)
    (respond : Request → Option Str) :
    (trim description = [] →
      onGenerateClick st description apiKey respond = (st, Outcome.missingInput, [])) ∧
    (trim description ≠ [] → apiKey = [] →
      onGenerateClick st description apiKey respond = (st, Outcome.missingCredential, [])) ∧
    ((onGenerateClick st description apiKey respond).2.2 ≠ [] →
      trim description ≠ [] ∧ apiKey ≠ []) := by
  have h1 : trim description = [] →
      onGenerateClick st description apiKey respond = (st, Outcome.missingInput, []) := by
    intro h
    unfold onGenerateClick
    simp [h]
  have h2 : trim description ≠ [] → apiKey = [] →
      onGenerateClick st description apiKey respond = (st, Outcome.missingCredential, []) := by
    intro h hk
    unfold onGenerateClick
    simp [h, hk]
  refine ⟨h1, h2, ?_⟩
  intro hreq
  by_cases hd : trim description = []
  · rw [h1 hd] at hreq
    exact absurd rfl hreq
  · refine ⟨hd, ?_⟩
    intro hk
    rw [h2 hd hk] at hreq
    exact absurd rfl hreq

/-- C14, on a description of blanks only, and on a description with an empty
credential: no request is issued, whatever the network would answer. -/
theorem onGenerateClick_guards_witness :
    onGenerateClick ⟨[], [], [], none⟩ "   ".toList "key".toList (fun _ => some "x".toList) =
      (⟨[], [], [], none⟩, Outcome.missingInput, []) ∧
    onGenerateClick ⟨[], [], [], none⟩ " a counter button ".toList [] (fun _ => some "x".toList) =
      (⟨[], [], [], none⟩, Outcome.missingCredential, []) :=
  ⟨(onGenerateClick_guards ⟨[], [], [], none⟩ "   ".toList "key".toList
      (fun _ => some "x".toList)).1 (by decide),
   (onGenerateClick_guards ⟨[], [], [], none⟩ " a counter button ".toList []
      (fun _ => some "x".toList)).2.1 (by decide) rfl⟩

end AiWebGen
